import Mathlib

/-!
Verification of the LeaveMax optimization engine (`optimizeLeaves` module).

Shallow embedding notes:

* The engine normalizes every incoming `Date` with `startOfDay` and compares
  dates only with `isSameDay` / `differenceInDays` / `format 'yyyy-MM-dd'`,
  i.e. at day granularity.  Dates are therefore embedded as integer day
  indices (`ℤ`); `normalize` becomes the identity on day indices and the
  `yyyy-MM-dd` key of a day is the day index itself.  Day 0 is taken to be a
  Monday, so a day is on a weekend iff its index mod 7 is 5 or 6.
* `while` loops over days are embedded as fuel-bounded recursions.  For each
  loop the definitions below supply a concrete sufficient fuel, and theorems
  prove the result does not change when the fuel is enlarged (this is the
  termination argument for the source loops).
* JavaScript `Array.prototype.sort` (a stable sort) with comparator `c` is
  embedded as a stable insertion sort with the boolean relation
  `le a b = (c a b ≤ 0)`.
* `efficiency` (a JS number, `totalDays / leaveDates.length`) is embedded as
  an exact rational.
-/

namespace LeaveOpt

/-! ### Calendar utilities -/

/-- `startOfDay`: on day indices this is the identity. -/
def normalize (d : ℤ) : ℤ := d

/-- `isWeekend` (date-fns): Saturday or Sunday.  Day 0 is a Monday. -/
def isWeekend (d : ℤ) : Bool := d % 7 == 5 || d % 7 == 6

/-- `isHoliday`: some holiday falls on the same day. -/
def isHoliday (date : ℤ) (holidays : List ℤ) : Bool :=
  holidays.any (fun h => h == date)

/-- `isWorkingDay`: not a weekend and not a holiday. -/
def isWorkingDay (date : ℤ) (holidays : List ℤ) : Bool :=
  !isWeekend date && !isHoliday date holidays

/-- `getDateRange`: all days from `start` to `last` inclusive (empty when
`last < start`). -/
def getDateRange (start last : ℤ) : List ℤ :=
  List.map (fun i : ℕ => start + (i : ℤ)) (List.range (last + 1 - start).toNat)

/-! ### Stable sort (JS `Array.prototype.sort`) -/

/-- Insert into a sorted list, before the first element `y` with `le x y`;
this realizes a stable sort when used right-to-left. -/
def insertBy (le : α → α → Bool) (x : α) : List α → List α
  | [] => [x]
  | y :: ys => if le x y then x :: y :: ys else y :: insertBy le x ys

/-- Stable insertion sort with relation `le a b` ("a may come before b"). -/
def sortBy (le : α → α → Bool) : List α → List α
  | [] => []
  | x :: xs => insertBy le x (sortBy le xs)

/-- Ascending comparison on day indices (comparator `a - b`). -/
def intLE (a b : ℤ) : Bool := decide (a ≤ b)

/-! ### Rule validators -/

/-- Scan loop of `exceedsMaxConsecutiveLeaves`: walk the sorted leave dates,
incrementing the streak when the current date is exactly one day after the
previous one and is a working day, resetting it to 1 otherwise. -/
def exceedsLoop (holidays : List ℤ) (maxStreak : ℕ) : ℤ → ℕ → List ℤ → Bool
  | _, _, [] => false
  | prev, streak, cur :: rest =>
    if cur - prev == 1 && isWorkingDay cur holidays then
      if streak + 1 > maxStreak then true
      else exceedsLoop holidays maxStreak cur (streak + 1) rest
    else exceedsLoop holidays maxStreak cur 1 rest

/-- `exceedsMaxConsecutiveLeaves`: max 3 consecutive working-day leaves. -/
def exceedsMaxConsecutiveLeaves (leaveDates holidays : List ℤ)
    (maxStreak : ℕ := 3) : Bool :=
  match sortBy intLE (leaveDates.map normalize) with
  | [] => false
  | first :: rest => exceedsLoop holidays maxStreak first 1 rest

/-- `hasHolidayAnchor`: some leave date is within 3 days of a non-weekend
holiday (`validHolidays` is the weekend-free filtering of the holidays). -/
def hasHolidayAnchor (leaveDates holidays : List ℤ) : Bool :=
  leaveDates.any (fun ld =>
    (holidays.filter (fun h => !isWeekend h)).any
      (fun h => decide ((ld - h).natAbs ≤ 3)))

/-! ### Span expander -/

/-- `isOffDay` from `extendToFullVacation`: weekend, holiday, or one of this
candidate's leave dates. -/
def isOffDay (holidays leaveDates : List ℤ) (d : ℤ) : Bool :=
  isWeekend d || isHoliday d holidays || leaveDates.any (fun x => x == d)

/-- The backward loop `while (isOffDay(start - 1)) start -= 1`, with fuel. -/
def extendBack (off : ℤ → Bool) : ℕ → ℤ → ℤ
  | 0, s => s
  | n + 1, s => if off (s - 1) then extendBack off n (s - 1) else s

/-- The forward loop `while (isOffDay(end + 1)) end += 1`, with fuel. -/
def extendFwd (off : ℤ → Bool) : ℕ → ℤ → ℤ
  | 0, e => e
  | n + 1, e => if off (e + 1) then extendFwd off n (e + 1) else e

/-- `extendToFullVacation`: grow the span of `{anchor} ∪ leaveDates` outward
while the adjacent day is off.  The fuel `(start - lo).toNat + 3` (resp.
`(hi - stop).toNat + 3`) is sufficient: below (above) the least (greatest)
holiday/leave only weekends are off, and a weekend run is at most 2 days.
`extra` adds slack to the fuel; theorems show it never changes the result. -/
def extendToFullVacationF (extra : ℕ) (leaveDates holidays : List ℤ)
    (anchor : ℤ) : ℤ × ℤ :=
  let off := isOffDay holidays leaveDates
  let start := normalize (leaveDates.foldl min anchor)
  let stop := normalize (leaveDates.foldl max anchor)
  let lo := (holidays ++ leaveDates).foldl min anchor
  let hi := (holidays ++ leaveDates).foldl max anchor
  (extendBack off ((start - lo).toNat + 3 + extra) start,
   extendFwd off ((hi - stop).toNat + 3 + extra) stop)

/-! ### Opportunity builders -/

structure Opportunity where
  leaveDates : List ℤ
  startDate : ℤ
  endDate : ℤ
  totalDays : ℤ
  bonusDays : ℤ
  efficiency : ℚ
deriving DecidableEq, Repr

/-- `buildOpportunity`: reject empty seeds, seeds breaking the consecutive
cap, and unanchored seeds; otherwise expand the span and fill in the
derived statistics (`totalDays` is the length of the inclusive day range of
the expanded span). -/
def buildOpportunityF (extra : ℕ) (leaveDates holidays : List ℤ)
    (anchorHoliday : ℤ) : Option Opportunity :=
  if leaveDates.length == 0 || exceedsMaxConsecutiveLeaves leaveDates holidays
      || !hasHolidayAnchor leaveDates holidays then
    none
  else
    some { leaveDates := leaveDates,
           startDate := (extendToFullVacationF extra leaveDates holidays anchorHoliday).1,
           endDate := (extendToFullVacationF extra leaveDates holidays anchorHoliday).2,
           totalDays := ((getDateRange
               (extendToFullVacationF extra leaveDates holidays anchorHoliday).1
               (extendToFullVacationF extra leaveDates holidays anchorHoliday).2).length : ℤ),
           bonusDays := ((getDateRange
               (extendToFullVacationF extra leaveDates holidays anchorHoliday).1
               (extendToFullVacationF extra leaveDates holidays anchorHoliday).2).length : ℤ)
             - (leaveDates.length : ℤ),
           efficiency := (((getDateRange
               (extendToFullVacationF extra leaveDates holidays anchorHoliday).1
               (extendToFullVacationF extra leaveDates holidays anchorHoliday).2).length : ℤ) : ℚ)
             / ((leaveDates.length : ℤ) : ℚ) }

/-- `before.slice(-3)`: the last (up to) three elements. -/
def sliceLastThree (l : List ℤ) : List ℤ := l.drop (l.length - 3)

/-- The backward walk collecting consecutive working days before a holiday,
in chronological order (`unshift`).  Fuel 6 is sufficient: any 6 consecutive
days contain a weekend day. -/
def collectBefore (holidays : List ℤ) : ℕ → ℤ → List ℤ
  | 0, _ => []
  | n + 1, d =>
    if isWorkingDay d holidays then collectBefore holidays n (d - 1) ++ [normalize d]
    else []

/-- The forward walk collecting consecutive working days after a holiday. -/
def collectAfter (holidays : List ℤ) : ℕ → ℤ → List ℤ
  | 0, _ => []
  | n + 1, d =>
    if isWorkingDay d holidays then normalize d :: collectAfter holidays n (d + 1)
    else []

/-- `findOpportunitiesAroundHoliday`: skip weekend holidays; otherwise build
the before-only, after-only and combined candidates. -/
def findOpportunitiesAroundHolidayF (extra : ℕ) (holiday : ℤ)
    (holidays : List ℤ) : List Opportunity :=
  if isWeekend holiday then []
  else
    (buildOpportunityF extra
        (sliceLastThree (collectBefore holidays (6 + extra) (holiday - 1)))
        holidays holiday).toList ++
    (buildOpportunityF extra
        ((collectAfter holidays (6 + extra) (holiday + 1)).take 3)
        holidays holiday).toList ++
    (buildOpportunityF extra
        (sliceLastThree (collectBefore holidays (6 + extra) (holiday - 1)) ++
          (collectAfter holidays (6 + extra) (holiday + 1)).take 3)
        holidays holiday).toList

/-! ### Selector -/

structure LeaveRecommendation where
  leaveDates : List ℤ
  startDate : ℤ
  endDate : ℤ
  totalDays : ℤ
  leavesUsed : ℤ
  description : String
deriving DecidableEq, Repr

structure OptimizationResult where
  recommendations : List LeaveRecommendation
  optimizedLeaves : List ℤ
  totalVacations : ℤ
  longestBreak : ℤ
  leavesRemaining : ℤ
deriving DecidableEq, Repr

/-- Sort relation of the opportunity sort: descending `totalDays` when
`preferLonger`, descending `efficiency` otherwise. -/
def oppLE (preferLonger : Bool) (a b : Opportunity) : Bool :=
  if preferLonger then decide (b.totalDays ≤ a.totalDays)
  else decide (b.efficiency ≤ a.efficiency)

/-- State of the greedy selection loop: consumed day keys, spent leaves and
accepted opportunities in acceptance order. -/
structure SelState where
  used : List ℤ
  usedLeaves : ℤ
  selected : List Opportunity

/-- The rejection test of the greedy loop: a key already consumed, or the
budget would be exceeded. -/
def rejectB (totalLeaves : ℤ) (st : SelState) (opp : Opportunity) : Bool :=
  (opp.leaveDates.map normalize).any (fun k => st.used.contains k)
    || decide (totalLeaves < st.usedLeaves + ((opp.leaveDates.map normalize).length : ℤ))

/-- Accepting an opportunity: consume its keys, spend its leaves, append it. -/
def acceptOpp (st : SelState) (opp : Opportunity) : SelState :=
  { used := st.used ++ opp.leaveDates.map normalize,
    usedLeaves := st.usedLeaves + ((opp.leaveDates.map normalize).length : ℤ),
    selected := st.selected ++ [opp] }

/-- The greedy selection loop over the sorted opportunity list. -/
def selectGo (totalLeaves : ℤ) : SelState → List Opportunity → SelState
  | st, [] => st
  | st, opp :: rest =>
    if rejectB totalLeaves st opp then selectGo totalLeaves st rest
    else selectGo totalLeaves (acceptOpp st opp) rest

/-- Projection of an accepted opportunity to the output record. -/
def toRecommendation (o : Opportunity) : LeaveRecommendation :=
  { leaveDates := o.leaveDates, startDate := o.startDate, endDate := o.endDate,
    totalDays := o.totalDays, leavesUsed := (o.leaveDates.length : ℤ),
    description := "Take " ++ toString o.leaveDates.length ++
      " leave day(s) to get " ++ toString o.totalDays ++ " continuous days off" }

/-- `emptyResult`. -/
def emptyResult (totalLeaves : ℤ) : OptimizationResult :=
  { recommendations := [], optimizedLeaves := [], totalVacations := 0,
    longestBreak := 0, leavesRemaining := totalLeaves }

/-- `flatMap` on lists, written out for easy induction. -/
def flatMapL (f : α → List β) : List α → List β
  | [] => []
  | x :: xs => f x ++ flatMapL f xs

/-- The de-duplicated, ascending holiday list (`map(normalize).sort(...)`;
the source list may contain duplicates, which survive the sort). -/
def normalizedHolidaysOf (holidays : List ℤ) : List ℤ :=
  sortBy intLE (holidays.map normalize)

/-- All candidate opportunities of every holiday, in holiday order. -/
def opportunitiesOf (extra : ℕ) (holidays : List ℤ) : List Opportunity :=
  flatMapL (fun h => findOpportunitiesAroundHolidayF extra h (normalizedHolidaysOf holidays))
    (normalizedHolidaysOf holidays)

/-- The final greedy state of `optimizeLeaves` on a non-degenerate input. -/
def finalStateOf (extra : ℕ) (holidays : List ℤ) (totalLeaves : ℤ)
    (preferLonger : Bool) : SelState :=
  selectGo totalLeaves ⟨[], 0, []⟩
    (sortBy (oppLE preferLonger) (opportunitiesOf extra holidays))

/-- Aggregation of the selected opportunities into the result record. -/
def resultOf (st : SelState) (totalLeaves : ℤ) : OptimizationResult :=
  { recommendations := st.selected.map toRecommendation,
    optimizedLeaves := flatMapL (fun o => o.leaveDates) st.selected,
    totalVacations := ((st.selected.map toRecommendation).length : ℤ),
    longestBreak := ((st.selected.map toRecommendation).map
        (fun r => r.totalDays)).foldl max 0,
    leavesRemaining := totalLeaves - st.usedLeaves }

/-- `optimizeLeaves`, with loop-fuel slack `extra` (the source's unbounded
loops correspond to arbitrary `extra`; theorems show `extra` is irrelevant). -/
def optimizeLeavesF (extra : ℕ) (holidays : List ℤ) (totalLeaves : ℤ)
    (_sandwichRule preferLonger : Bool) : OptimizationResult :=
  if holidays.isEmpty || decide (totalLeaves ≤ 0) then emptyResult totalLeaves
  else resultOf (finalStateOf extra holidays totalLeaves preferLonger) totalLeaves

/-- `optimizeLeaves`: the single entry point. -/
def optimizeLeaves (holidays : List ℤ) (totalLeaves : ℤ)
    (sandwichRule preferLonger : Bool) : OptimizationResult :=
  optimizeLeavesF 0 holidays totalLeaves sandwichRule preferLonger

/-- Removal of later duplicates from a list (first occurrences kept), with
an accumulator of already-seen values. -/
def removeDups [DecidableEq α] (seen : List α) : List α → List α
  | [] => []
  | x :: xs => if x ∈ seen then removeDups seen xs else x :: removeDups (x :: seen) xs

/-! ## Basic helper lemmas -/

theorem map_normalize (l : List ℤ) : l.map normalize = l := by
  induction l with
  | nil => rfl
  | cons x xs ih => simp [normalize, ih]

theorem bool_ext {a b : Bool} (h : a = true ↔ b = true) : a = b := by
  cases a <;> cases b <;> simp_all

theorem contains_iff (l : List ℤ) (k : ℤ) : l.contains k = true ↔ k ∈ l := by
  simp [List.contains]

theorem any_congr_mem {l₁ l₂ : List α} (p : α → Bool)
    (h : ∀ x, x ∈ l₁ ↔ x ∈ l₂) : l₁.any p = l₂.any p := by
  apply bool_ext
  simp only [List.any_eq_true]
  constructor
  · rintro ⟨x, hx, hp⟩; exact ⟨x, (h x).1 hx, hp⟩
  · rintro ⟨x, hx, hp⟩; exact ⟨x, (h x).2 hx, hp⟩

theorem any_congr_pred {l : List α} (p q : α → Bool)
    (h : ∀ x ∈ l, p x = q x) : l.any p = l.any q := by
  induction l with
  | nil => rfl
  | cons x xs ih =>
    simp only [List.any_cons, h x (by simp)]
    rw [ih (fun y hy => h y (by simp [hy]))]

theorem isWeekend_true_iff (d : ℤ) :
    isWeekend d = true ↔ d % 7 = 5 ∨ d % 7 = 6 := by
  simp [isWeekend]

theorem isWeekend_false_iff (d : ℤ) :
    isWeekend d = false ↔ (d % 7 ≠ 5 ∧ d % 7 ≠ 6) := by
  simp [isWeekend]

theorem isHoliday_true_iff (d : ℤ) (hs : List ℤ) :
    isHoliday d hs = true ↔ d ∈ hs := by
  simp [isHoliday]

theorem isHoliday_congr {hs₁ hs₂ : List ℤ} (d : ℤ)
    (h : ∀ x, x ∈ hs₁ ↔ x ∈ hs₂) : isHoliday d hs₁ = isHoliday d hs₂ :=
  any_congr_mem _ h

theorem isWorkingDay_congr {hs₁ hs₂ : List ℤ} (d : ℤ)
    (h : ∀ x, x ∈ hs₁ ↔ x ∈ hs₂) : isWorkingDay d hs₁ = isWorkingDay d hs₂ := by
  simp [isWorkingDay, isHoliday_congr d h]

theorem isOffDay_congr {hs₁ hs₂ : List ℤ} (ld : List ℤ) (d : ℤ)
    (h : ∀ x, x ∈ hs₁ ↔ x ∈ hs₂) : isOffDay hs₁ ld d = isOffDay hs₂ ld d := by
  simp [isOffDay, isHoliday_congr d h]

theorem isWorkingDay_true_iff (d : ℤ) (hs : List ℤ) :
    isWorkingDay d hs = true ↔ isWeekend d = false ∧ isHoliday d hs = false := by
  simp [isWorkingDay]

/-! ## Day-of-week arithmetic -/

/-- Going backward, a non-weekend day occurs within 3 consecutive days. -/
theorem exists_weekday_back (y : ℤ) :
    ∃ j : ℕ, j < 3 ∧ isWeekend (y - (j : ℤ)) = false := by
  by_cases h5 : y % 7 = 5
  · exact ⟨1, by omega, by rw [isWeekend_false_iff]; push_cast; omega⟩
  · by_cases h6 : y % 7 = 6
    · exact ⟨2, by omega, by rw [isWeekend_false_iff]; push_cast; omega⟩
    · exact ⟨0, by omega, by rw [isWeekend_false_iff]; push_cast; omega⟩

/-- Going forward, a non-weekend day occurs within 3 consecutive days. -/
theorem exists_weekday_fwd (y : ℤ) :
    ∃ j : ℕ, j < 3 ∧ isWeekend (y + (j : ℤ)) = false := by
  by_cases h5 : y % 7 = 5
  · exact ⟨2, by omega, by rw [isWeekend_false_iff]; push_cast; omega⟩
  · by_cases h6 : y % 7 = 6
    · exact ⟨1, by omega, by rw [isWeekend_false_iff]; push_cast; omega⟩
    · exact ⟨0, by omega, by rw [isWeekend_false_iff]; push_cast; omega⟩

/-- Going backward, a weekend day occurs within 6 consecutive days. -/
theorem exists_weekend_back (d : ℤ) :
    ∃ k : ℕ, k < 6 ∧ isWeekend (d - (k : ℤ)) = true := by
  have h : d % 7 = 0 ∨ d % 7 = 1 ∨ d % 7 = 2 ∨ d % 7 = 3 ∨ d % 7 = 4 ∨
      d % 7 = 5 ∨ d % 7 = 6 := by omega
  rcases h with h | h | h | h | h | h | h
  · exact ⟨1, by omega, by rw [isWeekend_true_iff]; push_cast; omega⟩
  · exact ⟨2, by omega, by rw [isWeekend_true_iff]; push_cast; omega⟩
  · exact ⟨3, by omega, by rw [isWeekend_true_iff]; push_cast; omega⟩
  · exact ⟨4, by omega, by rw [isWeekend_true_iff]; push_cast; omega⟩
  · exact ⟨5, by omega, by rw [isWeekend_true_iff]; push_cast; omega⟩
  · exact ⟨0, by omega, by rw [isWeekend_true_iff]; push_cast; omega⟩
  · exact ⟨0, by omega, by rw [isWeekend_true_iff]; push_cast; omega⟩

/-- Going forward, a weekend day occurs within 6 consecutive days. -/
theorem exists_weekend_fwd (d : ℤ) :
    ∃ k : ℕ, k < 6 ∧ isWeekend (d + (k : ℤ)) = true := by
  have h : d % 7 = 0 ∨ d % 7 = 1 ∨ d % 7 = 2 ∨ d % 7 = 3 ∨ d % 7 = 4 ∨
      d % 7 = 5 ∨ d % 7 = 6 := by omega
  rcases h with h | h | h | h | h | h | h
  · exact ⟨5, by omega, by rw [isWeekend_true_iff]; push_cast; omega⟩
  · exact ⟨4, by omega, by rw [isWeekend_true_iff]; push_cast; omega⟩
  · exact ⟨3, by omega, by rw [isWeekend_true_iff]; push_cast; omega⟩
  · exact ⟨2, by omega, by rw [isWeekend_true_iff]; push_cast; omega⟩
  · exact ⟨1, by omega, by rw [isWeekend_true_iff]; push_cast; omega⟩
  · exact ⟨0, by omega, by rw [isWeekend_true_iff]; push_cast; omega⟩
  · exact ⟨0, by omega, by rw [isWeekend_true_iff]; push_cast; omega⟩

/-! ## The working-day walks (termination and structure) -/

theorem collectBefore_stable (hs : List ℤ) :
    ∀ (n m : ℕ) (d : ℤ), (∃ k : ℕ, k < n ∧ isWorkingDay (d - (k : ℤ)) hs = false) →
      n ≤ m → collectBefore hs m d = collectBefore hs n d := by
  intro n
  induction n with
  | zero => rintro m d ⟨k, hk, _⟩ _; omega
  | succ n ih =>
    rintro m d ⟨k, hk, hkw⟩ hnm
    obtain ⟨m', rfl⟩ : ∃ m', m = m' + 1 := ⟨m - 1, by omega⟩
    by_cases hw : isWorkingDay d hs = true
    · have hk0 : k ≠ 0 := by
        intro h0; rw [h0] at hkw; simp at hkw; rw [hw] at hkw; cases hkw
      have hrec : collectBefore hs m' (d - 1) = collectBefore hs n (d - 1) := by
        apply ih
        · refine ⟨k - 1, by omega, ?_⟩
          have : d - 1 - ((k - 1 : ℕ) : ℤ) = d - (k : ℤ) := by
            push_cast [Nat.cast_sub (by omega : 1 ≤ k)]; ring
          rw [this]; exact hkw
        · omega
      simp [collectBefore, hw, hrec]
    · simp at hw
      simp [collectBefore, hw]

theorem collectBefore_six (hs : List ℤ) (m : ℕ) (d : ℤ) (h : 6 ≤ m) :
    collectBefore hs m d = collectBefore hs 6 d := by
  apply collectBefore_stable hs 6 m d _ h
  obtain ⟨k, hk, hkw⟩ := exists_weekend_back d
  exact ⟨k, hk, by simp [isWorkingDay, hkw]⟩

theorem collectAfter_stable (hs : List ℤ) :
    ∀ (n m : ℕ) (d : ℤ), (∃ k : ℕ, k < n ∧ isWorkingDay (d + (k : ℤ)) hs = false) →
      n ≤ m → collectAfter hs m d = collectAfter hs n d := by
  intro n
  induction n with
  | zero => rintro m d ⟨k, hk, _⟩ _; omega
  | succ n ih =>
    rintro m d ⟨k, hk, hkw⟩ hnm
    obtain ⟨m', rfl⟩ : ∃ m', m = m' + 1 := ⟨m - 1, by omega⟩
    by_cases hw : isWorkingDay d hs = true
    · have hk0 : k ≠ 0 := by
        intro h0; rw [h0] at hkw; simp at hkw; rw [hw] at hkw; cases hkw
      have hrec : collectAfter hs m' (d + 1) = collectAfter hs n (d + 1) := by
        apply ih
        · refine ⟨k - 1, by omega, ?_⟩
          have : d + 1 + ((k - 1 : ℕ) : ℤ) = d + (k : ℤ) := by
            push_cast [Nat.cast_sub (by omega : 1 ≤ k)]; ring
          rw [this]; exact hkw
        · omega
      simp [collectAfter, hw, hrec]
    · simp at hw
      simp [collectAfter, hw]

theorem collectAfter_six (hs : List ℤ) (m : ℕ) (d : ℤ) (h : 6 ≤ m) :
    collectAfter hs m d = collectAfter hs 6 d := by
  apply collectAfter_stable hs 6 m d _ h
  obtain ⟨k, hk, hkw⟩ := exists_weekend_fwd d
  exact ⟨k, hk, by simp [isWorkingDay, hkw]⟩

theorem collectBefore_mem (hs : List ℤ) :
    ∀ (n : ℕ) (d x : ℤ), x ∈ collectBefore hs n d →
      isWorkingDay x hs = true ∧ x ≤ d := by
  intro n
  induction n with
  | zero => intro d x hx; simp [collectBefore] at hx
  | succ n ih =>
    intro d x hx
    by_cases hw : isWorkingDay d hs = true
    · simp only [collectBefore, hw, if_true, List.mem_append, List.mem_singleton] at hx
      rcases hx with hx | hx
      · obtain ⟨h1, h2⟩ := ih (d - 1) x hx
        exact ⟨h1, by omega⟩
      · subst hx; exact ⟨by simpa [normalize] using hw, by simp [normalize]⟩
    · simp at hw; simp [collectBefore, hw] at hx

theorem collectAfter_mem (hs : List ℤ) :
    ∀ (n : ℕ) (d x : ℤ), x ∈ collectAfter hs n d →
      isWorkingDay x hs = true ∧ d ≤ x := by
  intro n
  induction n with
  | zero => intro d x hx; simp [collectAfter] at hx
  | succ n ih =>
    intro d x hx
    by_cases hw : isWorkingDay d hs = true
    · simp only [collectAfter, hw, if_true, List.mem_cons] at hx
      rcases hx with hx | hx
      · subst hx; exact ⟨by simpa [normalize] using hw, by simp [normalize]⟩
      · obtain ⟨h1, h2⟩ := ih (d + 1) x hx
        exact ⟨h1, by omega⟩
    · simp at hw; simp [collectAfter, hw] at hx

theorem collectBefore_sorted (hs : List ℤ) :
    ∀ (n : ℕ) (d : ℤ), List.Pairwise (· < ·) (collectBefore hs n d) := by
  intro n
  induction n with
  | zero => intro d; simp [collectBefore]
  | succ n ih =>
    intro d
    by_cases hw : isWorkingDay d hs = true
    · simp only [collectBefore, hw, if_true]
      rw [List.pairwise_append]
      refine ⟨ih (d - 1), by simp, ?_⟩
      intro a ha b hb
      rw [List.mem_singleton] at hb
      have h2 := (collectBefore_mem hs n (d - 1) a ha).2
      have h3 : b = d := by simpa [normalize] using hb
      omega
    · simp at hw; simp [collectBefore, hw]

theorem collectAfter_sorted (hs : List ℤ) :
    ∀ (n : ℕ) (d : ℤ), List.Pairwise (· < ·) (collectAfter hs n d) := by
  intro n
  induction n with
  | zero => intro d; simp [collectAfter]
  | succ n ih =>
    intro d
    by_cases hw : isWorkingDay d hs = true
    · simp only [collectAfter, hw, if_true]
      rw [List.pairwise_cons]
      refine ⟨?_, ih (d + 1)⟩
      intro b hb
      have := (collectAfter_mem hs n (d + 1) b hb).2
      simp only [normalize]; omega
    · simp at hw; simp [collectAfter, hw]

/-! ## The span-expansion loops -/

theorem extendBack_le (off : ℤ → Bool) :
    ∀ (n : ℕ) (s : ℤ), extendBack off n s ≤ s := by
  intro n
  induction n with
  | zero => intro s; simp [extendBack]
  | succ n ih =>
    intro s
    by_cases h : off (s - 1) = true
    · simp only [extendBack, h, if_true]
      have := ih (s - 1); omega
    · simp at h; simp [extendBack, h]

theorem extendFwd_ge (off : ℤ → Bool) :
    ∀ (n : ℕ) (e : ℤ), e ≤ extendFwd off n e := by
  intro n
  induction n with
  | zero => intro e; simp [extendFwd]
  | succ n ih =>
    intro e
    by_cases h : off (e + 1) = true
    · simp only [extendFwd, h, if_true]
      have := ih (e + 1); omega
    · simp at h; simp [extendFwd, h]

theorem extendBack_stop (off : ℤ → Bool) :
    ∀ (n : ℕ) (s : ℤ), (∃ k : ℕ, k < n ∧ off (s - 1 - (k : ℤ)) = false) →
      off (extendBack off n s - 1) = false := by
  intro n
  induction n with
  | zero => rintro s ⟨k, hk, _⟩; omega
  | succ n ih =>
    rintro s ⟨k, hk, hkf⟩
    by_cases h : off (s - 1) = true
    · have hk0 : k ≠ 0 := by
        intro h0; rw [h0] at hkf; simp at hkf; rw [h] at hkf; cases hkf
      simp only [extendBack, h, if_true]
      apply ih
      refine ⟨k - 1, by omega, ?_⟩
      have : s - 1 - 1 - ((k - 1 : ℕ) : ℤ) = s - 1 - (k : ℤ) := by
        push_cast [Nat.cast_sub (by omega : 1 ≤ k)]; ring
      rw [this]; exact hkf
    · simp at h; simp [extendBack, h]

theorem extendFwd_stop (off : ℤ → Bool) :
    ∀ (n : ℕ) (e : ℤ), (∃ k : ℕ, k < n ∧ off (e + 1 + (k : ℤ)) = false) →
      off (extendFwd off n e + 1) = false := by
  intro n
  induction n with
  | zero => rintro e ⟨k, hk, _⟩; omega
  | succ n ih =>
    rintro e ⟨k, hk, hkf⟩
    by_cases h : off (e + 1) = true
    · have hk0 : k ≠ 0 := by
        intro h0; rw [h0] at hkf; simp at hkf; rw [h] at hkf; cases hkf
      simp only [extendFwd, h, if_true]
      apply ih
      refine ⟨k - 1, by omega, ?_⟩
      have : e + 1 + 1 + ((k - 1 : ℕ) : ℤ) = e + 1 + (k : ℤ) := by
        push_cast [Nat.cast_sub (by omega : 1 ≤ k)]; ring
      rw [this]; exact hkf
    · simp at h; simp [extendFwd, h]

theorem extendBack_stable (off : ℤ → Bool) :
    ∀ (n m : ℕ) (s : ℤ), (∃ k : ℕ, k < n ∧ off (s - 1 - (k : ℤ)) = false) →
      n ≤ m → extendBack off m s = extendBack off n s := by
  intro n
  induction n with
  | zero => rintro m s ⟨k, hk, _⟩ _; omega
  | succ n ih =>
    rintro m s ⟨k, hk, hkf⟩ hnm
    obtain ⟨m', rfl⟩ : ∃ m', m = m' + 1 := ⟨m - 1, by omega⟩
    by_cases h : off (s - 1) = true
    · have hk0 : k ≠ 0 := by
        intro h0; rw [h0] at hkf; simp at hkf; rw [h] at hkf; cases hkf
      have hrec : extendBack off m' (s - 1) = extendBack off n (s - 1) := by
        apply ih
        · refine ⟨k - 1, by omega, ?_⟩
          have : s - 1 - 1 - ((k - 1 : ℕ) : ℤ) = s - 1 - (k : ℤ) := by
            push_cast [Nat.cast_sub (by omega : 1 ≤ k)]; ring
          rw [this]; exact hkf
        · omega
      simp [extendBack, h, hrec]
    · simp at h; simp [extendBack, h]

theorem extendFwd_stable (off : ℤ → Bool) :
    ∀ (n m : ℕ) (e : ℤ), (∃ k : ℕ, k < n ∧ off (e + 1 + (k : ℤ)) = false) →
      n ≤ m → extendFwd off m e = extendFwd off n e := by
  intro n
  induction n with
  | zero => rintro m e ⟨k, hk, _⟩ _; omega
  | succ n ih =>
    rintro m e ⟨k, hk, hkf⟩ hnm
    obtain ⟨m', rfl⟩ : ∃ m', m = m' + 1 := ⟨m - 1, by omega⟩
    by_cases h : off (e + 1) = true
    · have hk0 : k ≠ 0 := by
        intro h0; rw [h0] at hkf; simp at hkf; rw [h] at hkf; cases hkf
      have hrec : extendFwd off m' (e + 1) = extendFwd off n (e + 1) := by
        apply ih
        · refine ⟨k - 1, by omega, ?_⟩
          have : e + 1 + 1 + ((k - 1 : ℕ) : ℤ) = e + 1 + (k : ℤ) := by
            push_cast [Nat.cast_sub (by omega : 1 ≤ k)]; ring
          rw [this]; exact hkf
        · omega
      simp [extendFwd, h, hrec]
    · simp at h; simp [extendFwd, h]

/-! ## Folded minima / maxima -/

theorem foldl_min_le_init : ∀ (l : List ℤ) (a : ℤ), l.foldl min a ≤ a := by
  intro l
  induction l with
  | nil => intro a; simp
  | cons x xs ih =>
    intro a
    have := ih (min a x)
    simp only [List.foldl_cons]
    omega

theorem foldl_min_le_mem : ∀ (l : List ℤ) (a x : ℤ), x ∈ l → l.foldl min a ≤ x := by
  intro l
  induction l with
  | nil => intro a x hx; simp at hx
  | cons y ys ih =>
    intro a x hx
    rcases List.mem_cons.1 hx with h | h
    · subst h
      have := foldl_min_le_init ys (min a x)
      simp only [List.foldl_cons]
      omega
    · exact ih (min a y) x h

theorem le_foldl_min : ∀ (l : List ℤ) (a c : ℤ), c ≤ a → (∀ x ∈ l, c ≤ x) →
    c ≤ l.foldl min a := by
  intro l
  induction l with
  | nil => intro a c h _; simpa using h
  | cons y ys ih =>
    intro a c h hall
    simp only [List.foldl_cons]
    apply ih
    · have := hall y (by simp); omega
    · intro x hx; exact hall x (by simp [hx])

theorem foldl_min_mem : ∀ (l : List ℤ) (a : ℤ), l.foldl min a = a ∨ l.foldl min a ∈ l := by
  intro l
  induction l with
  | nil => intro a; simp
  | cons y ys ih =>
    intro a
    simp only [List.foldl_cons]
    rcases ih (min a y) with h | h
    · rcases le_total a y with hay | hay
      · left; rw [h]; omega
      · right; rw [h]; simp; left; omega
    · right; simp [h]

theorem foldl_max_init_le : ∀ (l : List ℤ) (a : ℤ), a ≤ l.foldl max a := by
  intro l
  induction l with
  | nil => intro a; simp
  | cons x xs ih =>
    intro a
    have := ih (max a x)
    simp only [List.foldl_cons]
    omega

theorem foldl_max_mem_le : ∀ (l : List ℤ) (a x : ℤ), x ∈ l → x ≤ l.foldl max a := by
  intro l
  induction l with
  | nil => intro a x hx; simp at hx
  | cons y ys ih =>
    intro a x hx
    rcases List.mem_cons.1 hx with h | h
    · subst h
      have := foldl_max_init_le ys (max a x)
      simp only [List.foldl_cons]
      omega
    · exact ih (max a y) x h

theorem foldl_max_le : ∀ (l : List ℤ) (a c : ℤ), a ≤ c → (∀ x ∈ l, x ≤ c) →
    l.foldl max a ≤ c := by
  intro l
  induction l with
  | nil => intro a c h _; simpa using h
  | cons y ys ih =>
    intro a c h hall
    simp only [List.foldl_cons]
    apply ih
    · have := hall y (by simp); omega
    · intro x hx; exact hall x (by simp [hx])

theorem foldl_max_mem : ∀ (l : List ℤ) (a : ℤ), l.foldl max a = a ∨ l.foldl max a ∈ l := by
  intro l
  induction l with
  | nil => intro a; simp
  | cons y ys ih =>
    intro a
    simp only [List.foldl_cons]
    rcases ih (max a y) with h | h
    · rcases le_total a y with hay | hay
      · right; rw [h]; simp; left; omega
      · left; rw [h]; omega
    · right; simp [h]

theorem foldl_min_congr {l₁ l₂ : List ℤ} (a : ℤ)
    (h : ∀ x, x ∈ l₁ ↔ x ∈ l₂) : l₁.foldl min a = l₂.foldl min a := by
  apply le_antisymm
  · rcases foldl_min_mem l₂ a with h2 | h2
    · rw [h2]; exact foldl_min_le_init l₁ a
    · exact foldl_min_le_mem l₁ a _ ((h _).2 h2)
  · rcases foldl_min_mem l₁ a with h1 | h1
    · rw [h1]; exact foldl_min_le_init l₂ a
    · exact foldl_min_le_mem l₂ a _ ((h _).1 h1)

theorem foldl_max_congr {l₁ l₂ : List ℤ} (a : ℤ)
    (h : ∀ x, x ∈ l₁ ↔ x ∈ l₂) : l₁.foldl max a = l₂.foldl max a := by
  apply le_antisymm
  · rcases foldl_max_mem l₁ a with h1 | h1
    · rw [h1]; exact foldl_max_init_le l₂ a
    · exact foldl_max_mem_le l₂ a _ ((h _).1 h1)
  · rcases foldl_max_mem l₂ a with h2 | h2
    · rw [h2]; exact foldl_max_init_le l₁ a
    · exact foldl_max_mem_le l₁ a _ ((h _).2 h2)

/-! ## Span-expansion specification -/

theorem isOffDay_false_intro (hs ld : List ℤ) (d : ℤ)
    (h1 : isWeekend d = false) (h2 : d ∉ hs) (h3 : d ∉ ld) :
    isOffDay hs ld d = false := by
  have hh : isHoliday d hs = false := by
    rw [Bool.eq_false_iff, Ne, isHoliday_true_iff]; exact h2
  have ha : ld.any (fun x => x == d) = false := by
    rw [Bool.eq_false_iff]
    intro hc
    rw [List.any_eq_true] at hc
    obtain ⟨x, hx, he⟩ := hc
    rw [beq_iff_eq] at he
    exact h3 (he ▸ hx)
  simp [isOffDay, h1, hh, ha]

theorem exists_off_false_back (hs ld : List ℤ) (a : ℤ) :
    ∃ k : ℕ, k < ((ld.foldl min a) - ((hs ++ ld).foldl min a)).toNat + 3 ∧
      isOffDay hs ld (ld.foldl min a - 1 - (k : ℤ)) = false := by
  have hlo_a : (hs ++ ld).foldl min a ≤ a := foldl_min_le_init _ _
  have hlo_mem : ∀ x ∈ hs ++ ld, (hs ++ ld).foldl min a ≤ x :=
    fun x hx => foldl_min_le_mem _ _ _ hx
  have hlos : (hs ++ ld).foldl min a ≤ ld.foldl min a :=
    le_foldl_min _ _ _ hlo_a (fun x hx => hlo_mem x (by simp [hx]))
  obtain ⟨j, hj3, hjw⟩ := exists_weekday_back ((hs ++ ld).foldl min a - 1)
  refine ⟨(ld.foldl min a - (hs ++ ld).foldl min a).toNat + j, by omega, ?_⟩
  have harith : ld.foldl min a - 1 -
      (((ld.foldl min a - (hs ++ ld).foldl min a).toNat + j : ℕ) : ℤ) =
      (hs ++ ld).foldl min a - 1 - (j : ℤ) := by
    push_cast; omega
  rw [harith]
  apply isOffDay_false_intro _ _ _ hjw
  · intro hmem
    have := hlo_mem _ (List.mem_append_left ld hmem)
    omega
  · intro hmem
    have := hlo_mem _ (List.mem_append_right hs hmem)
    omega

theorem exists_off_false_fwd (hs ld : List ℤ) (a : ℤ) :
    ∃ k : ℕ, k < (((hs ++ ld).foldl max a) - (ld.foldl max a)).toNat + 3 ∧
      isOffDay hs ld (ld.foldl max a + 1 + (k : ℤ)) = false := by
  have hhi_a : a ≤ (hs ++ ld).foldl max a := foldl_max_init_le _ _
  have hhi_mem : ∀ x ∈ hs ++ ld, x ≤ (hs ++ ld).foldl max a :=
    fun x hx => foldl_max_mem_le _ _ _ hx
  have hhis : ld.foldl max a ≤ (hs ++ ld).foldl max a :=
    foldl_max_le _ _ _ hhi_a (fun x hx => hhi_mem x (by simp [hx]))
  obtain ⟨j, hj3, hjw⟩ := exists_weekday_fwd ((hs ++ ld).foldl max a + 1)
  refine ⟨((hs ++ ld).foldl max a - ld.foldl max a).toNat + j, by omega, ?_⟩
  have harith : ld.foldl max a + 1 +
      ((((hs ++ ld).foldl max a - ld.foldl max a).toNat + j : ℕ) : ℤ) =
      (hs ++ ld).foldl max a + 1 + (j : ℤ) := by
    push_cast; omega
  rw [harith]
  apply isOffDay_false_intro _ _ _ hjw
  · intro hmem
    have := hhi_mem _ (List.mem_append_left ld hmem)
    omega
  · intro hmem
    have := hhi_mem _ (List.mem_append_right hs hmem)
    omega

theorem extendVac_eq (extra : ℕ) (ld hs : List ℤ) (a : ℤ) :
    extendToFullVacationF extra ld hs a =
      (extendBack (isOffDay hs ld)
        ((ld.foldl min a - (hs ++ ld).foldl min a).toNat + 3 + extra) (ld.foldl min a),
       extendFwd (isOffDay hs ld)
        (((hs ++ ld).foldl max a - ld.foldl max a).toNat + 3 + extra) (ld.foldl max a)) :=
  rfl

theorem extendVac_fst_le (extra : ℕ) (ld hs : List ℤ) (a : ℤ) :
    (extendToFullVacationF extra ld hs a).1 ≤ ld.foldl min a := by
  rw [extendVac_eq]
  exact extendBack_le _ _ _

theorem extendVac_snd_ge (extra : ℕ) (ld hs : List ℤ) (a : ℤ) :
    ld.foldl max a ≤ (extendToFullVacationF extra ld hs a).2 := by
  rw [extendVac_eq]
  exact extendFwd_ge _ _ _

theorem extendVac_fst_off (extra : ℕ) (ld hs : List ℤ) (a : ℤ) :
    isOffDay hs ld ((extendToFullVacationF extra ld hs a).1 - 1) = false := by
  rw [extendVac_eq]
  apply extendBack_stop
  obtain ⟨k, hk, hko⟩ := exists_off_false_back hs ld a
  exact ⟨k, by omega, hko⟩

theorem extendVac_snd_off (extra : ℕ) (ld hs : List ℤ) (a : ℤ) :
    isOffDay hs ld ((extendToFullVacationF extra ld hs a).2 + 1) = false := by
  rw [extendVac_eq]
  apply extendFwd_stop
  obtain ⟨k, hk, hko⟩ := exists_off_false_fwd hs ld a
  exact ⟨k, by omega, hko⟩

theorem extendVac_stable (extra : ℕ) (ld hs : List ℤ) (a : ℤ) :
    extendToFullVacationF extra ld hs a = extendToFullVacationF 0 ld hs a := by
  rw [extendVac_eq, extendVac_eq]
  have h1 : extendBack (isOffDay hs ld)
      ((ld.foldl min a - (hs ++ ld).foldl min a).toNat + 3 + extra) (ld.foldl min a) =
      extendBack (isOffDay hs ld)
      ((ld.foldl min a - (hs ++ ld).foldl min a).toNat + 3) (ld.foldl min a) := by
    apply extendBack_stable _ _ _ _ (exists_off_false_back hs ld a) (by omega)
  have h2 : extendFwd (isOffDay hs ld)
      (((hs ++ ld).foldl max a - ld.foldl max a).toNat + 3 + extra) (ld.foldl max a) =
      extendFwd (isOffDay hs ld)
      (((hs ++ ld).foldl max a - ld.foldl max a).toNat + 3) (ld.foldl max a) := by
    apply extendFwd_stable _ _ _ _ (exists_off_false_fwd hs ld a) (by omega)
  rw [h1, h2]

theorem extendVac_congr (extra : ℕ) (ld : List ℤ) (a : ℤ) {hs₁ hs₂ : List ℤ}
    (h : ∀ x, x ∈ hs₁ ↔ x ∈ hs₂) :
    extendToFullVacationF extra ld hs₁ a = extendToFullVacationF extra ld hs₂ a := by
  rw [extendVac_eq, extendVac_eq]
  have hoff : isOffDay hs₁ ld = isOffDay hs₂ ld :=
    funext (fun d => isOffDay_congr ld d h)
  have hmin : (hs₁ ++ ld).foldl min a = (hs₂ ++ ld).foldl min a :=
    foldl_min_congr a (by intro x; simp [h x])
  have hmax : (hs₁ ++ ld).foldl max a = (hs₂ ++ ld).foldl max a :=
    foldl_max_congr a (by intro x; simp [h x])
  rw [hoff, hmin, hmax]

/-! ## `buildOpportunity` specification -/

theorem buildOpp_some_spec (extra : ℕ) (ld hs : List ℤ) (a : ℤ) (o : Opportunity)
    (h : buildOpportunityF extra ld hs a = some o) :
    o.leaveDates = ld ∧
    o.startDate = (extendToFullVacationF extra ld hs a).1 ∧
    o.endDate = (extendToFullVacationF extra ld hs a).2 ∧
    o.totalDays = ((getDateRange o.startDate o.endDate).length : ℤ) ∧
    o.bonusDays = o.totalDays - (ld.length : ℤ) ∧
    o.efficiency = ((o.totalDays : ℤ) : ℚ) / ((ld.length : ℤ) : ℚ) ∧
    ld ≠ [] ∧
    exceedsMaxConsecutiveLeaves ld hs = false ∧
    hasHolidayAnchor ld hs = true := by
  unfold buildOpportunityF at h
  by_cases hg : (ld.length == 0 || exceedsMaxConsecutiveLeaves ld hs
      || !hasHolidayAnchor ld hs) = true
  · rw [if_pos hg] at h; cases h
  · rw [if_neg hg] at h
    rw [Bool.not_eq_true] at hg
    simp only [Bool.or_eq_false_iff, beq_eq_false_iff_ne, Ne,
      Bool.not_eq_false'] at hg
    obtain ⟨⟨hlen, hex⟩, han⟩ := hg
    cases h
    refine ⟨rfl, rfl, rfl, rfl, rfl, rfl, ?_, hex, han⟩
    intro hnil
    exact hlen (by simp [hnil])

/-! ## Stable sort lemmas -/

theorem insertBy_mem (le : α → α → Bool) (x : α) :
    ∀ (l : List α) (y : α), y ∈ insertBy le x l ↔ y = x ∨ y ∈ l := by
  intro l
  induction l with
  | nil => intro y; simp [insertBy]
  | cons z zs ih =>
    intro y
    by_cases h : le x z = true
    · simp only [insertBy, h, if_true, List.mem_cons]
    · rw [Bool.not_eq_true] at h
      simp only [insertBy, h, Bool.false_eq_true, if_false, List.mem_cons, ih]
      tauto

theorem sortBy_mem (le : α → α → Bool) :
    ∀ (l : List α) (y : α), y ∈ sortBy le l ↔ y ∈ l := by
  intro l
  induction l with
  | nil => intro y; simp [sortBy]
  | cons x xs ih =>
    intro y
    simp only [sortBy, insertBy_mem, ih, List.mem_cons]

theorem insertBy_sorted (le : α → α → Bool)
    (htrans : ∀ a b c, le a b = true → le b c = true → le a c = true)
    (htotal : ∀ a b, le a b = true ∨ le b a = true) (x : α) :
    ∀ (l : List α), List.Pairwise (fun a b => le a b = true) l →
      List.Pairwise (fun a b => le a b = true) (insertBy le x l) := by
  intro l
  induction l with
  | nil => intro _; simp [insertBy]
  | cons z zs ih =>
    intro hp
    rw [List.pairwise_cons] at hp
    obtain ⟨hz, hzs⟩ := hp
    by_cases h : le x z = true
    · simp only [insertBy, h, if_true]
      rw [List.pairwise_cons]
      refine ⟨?_, by rw [List.pairwise_cons]; exact ⟨hz, hzs⟩⟩
      intro b hb
      rcases List.mem_cons.1 hb with hb | hb
      · rw [hb]; exact h
      · exact htrans x z b h (hz b hb)
    · have hxz : le x z = false := by rw [← Bool.not_eq_true]; exact h
      simp only [insertBy, hxz, Bool.false_eq_true, if_false]
      rw [List.pairwise_cons]
      constructor
      · intro b hb
        rw [insertBy_mem] at hb
        rcases hb with hb | hb
        · rw [hb]
          rcases htotal x z with h' | h'
          · exact absurd h' h
          · exact h'
        · exact hz b hb
      · exact ih hzs

theorem sortBy_sorted (le : α → α → Bool)
    (htrans : ∀ a b c, le a b = true → le b c = true → le a c = true)
    (htotal : ∀ a b, le a b = true ∨ le b a = true) :
    ∀ (l : List α), List.Pairwise (fun a b => le a b = true) (sortBy le l) := by
  intro l
  induction l with
  | nil => simp [sortBy]
  | cons x xs ih => exact insertBy_sorted le htrans htotal x _ ih

theorem sortBy_of_pairwise (le : α → α → Bool) :
    ∀ (l : List α), List.Pairwise (fun a b => le a b = true) l → sortBy le l = l := by
  intro l
  induction l with
  | nil => intro _; rfl
  | cons x xs ih =>
    intro hp
    rw [List.pairwise_cons] at hp
    obtain ⟨hx, hxs⟩ := hp
    simp only [sortBy]
    rw [ih hxs]
    cases xs with
    | nil => rfl
    | cons y ys => simp [insertBy, hx y (List.mem_cons_self y ys)]

theorem intLE_refl (a : ℤ) : intLE a a = true := by simp [intLE]

theorem intLE_trans : ∀ a b c : ℤ, intLE a b = true → intLE b c = true →
    intLE a c = true := by
  intro a b c
  simp only [intLE, decide_eq_true_eq]
  omega

theorem intLE_total : ∀ a b : ℤ, intLE a b = true ∨ intLE b a = true := by
  intro a b
  simp only [intLE, decide_eq_true_eq]
  omega

theorem oppLE_refl (pl : Bool) (a : Opportunity) : oppLE pl a a = true := by
  cases pl <;> simp [oppLE]

theorem oppLE_trans (pl : Bool) : ∀ a b c : Opportunity, oppLE pl a b = true →
    oppLE pl b c = true → oppLE pl a c = true := by
  intro a b c
  cases pl <;> simp only [oppLE, if_true, if_false, Bool.false_eq_true,
    decide_eq_true_eq] <;> intro h1 h2 <;> exact le_trans h2 h1

theorem oppLE_total (pl : Bool) : ∀ a b : Opportunity,
    oppLE pl a b = true ∨ oppLE pl b a = true := by
  intro a b
  cases pl <;> simp only [oppLE, if_true, if_false, Bool.false_eq_true,
    decide_eq_true_eq] <;> exact le_total _ _

/-! ## `flatMapL` lemmas -/

theorem flatMapL_mem (f : α → List β) :
    ∀ (l : List α) (x : β), x ∈ flatMapL f l ↔ ∃ a ∈ l, x ∈ f a := by
  intro l
  induction l with
  | nil => intro x; simp [flatMapL]
  | cons a as ih =>
    intro x
    simp only [flatMapL, List.mem_append, ih, List.mem_cons]
    constructor
    · rintro (hx | ⟨b, hb, hx⟩)
      · exact ⟨a, Or.inl rfl, hx⟩
      · exact ⟨b, Or.inr hb, hx⟩
    · rintro ⟨b, hb | hb, hx⟩
      · subst hb; exact Or.inl hx
      · exact Or.inr ⟨b, hb, hx⟩

theorem flatMapL_congr (f g : α → List β) (h : ∀ a, f a = g a) :
    ∀ (l : List α), flatMapL f l = flatMapL g l := by
  intro l
  induction l with
  | nil => rfl
  | cons a as ih => simp only [flatMapL, h a, ih]

/-! ## Good seeds and provenance of recommendations -/

/-- The shape of every seed passed to `buildOpportunity`: strictly ascending
working days of the calendar `hs`. -/
def GoodSeed (hs seed : List ℤ) : Prop :=
  List.Pairwise (· < ·) seed ∧ ∀ d ∈ seed, isWorkingDay d hs = true

theorem goodSeed_before (hs : List ℤ) (n : ℕ) (d : ℤ) :
    GoodSeed hs (sliceLastThree (collectBefore hs n d)) := by
  constructor
  · exact (collectBefore_sorted hs n d).sublist (List.drop_sublist _ _)
  · intro x hx
    exact (collectBefore_mem hs n d x
      ((List.drop_sublist _ _).subset hx)).1

theorem goodSeed_after (hs : List ℤ) (n : ℕ) (d : ℤ) :
    GoodSeed hs ((collectAfter hs n d).take 3) := by
  constructor
  · exact (collectAfter_sorted hs n d).sublist (List.take_sublist _ _)
  · intro x hx
    exact (collectAfter_mem hs n d x
      ((List.take_sublist _ _).subset hx)).1

theorem goodSeed_combined (hs : List ℤ) (n : ℕ) (hday : ℤ) :
    GoodSeed hs (sliceLastThree (collectBefore hs n (hday - 1)) ++
      (collectAfter hs n (hday + 1)).take 3) := by
  obtain ⟨hp1, hm1⟩ := goodSeed_before hs n (hday - 1)
  obtain ⟨hp2, hm2⟩ := goodSeed_after hs n (hday + 1)
  constructor
  · rw [List.pairwise_append]
    refine ⟨hp1, hp2, ?_⟩
    intro a ha b hb
    have ha' := (collectBefore_mem hs n (hday - 1) a
      ((List.drop_sublist _ _).subset ha)).2
    have hb' := (collectAfter_mem hs n (hday + 1) b
      ((List.take_sublist _ _).subset hb)).2
    omega
  · intro x hx
    rcases List.mem_append.1 hx with hx | hx
    · exact hm1 x hx
    · exact hm2 x hx

theorem find_mem (extra : ℕ) (hday : ℤ) (hs : List ℤ) (o : Opportunity)
    (ho : o ∈ findOpportunitiesAroundHolidayF extra hday hs) :
    isWeekend hday = false ∧
    ∃ seed, GoodSeed hs seed ∧ buildOpportunityF extra seed hs hday = some o := by
  unfold findOpportunitiesAroundHolidayF at ho
  by_cases hw : isWeekend hday = true
  · rw [if_pos hw] at ho; simp at ho
  · rw [if_neg hw] at ho
    rw [Bool.not_eq_true] at hw
    refine ⟨hw, ?_⟩
    simp only [List.mem_append] at ho
    rcases ho with (h1 | h2) | h3
    · rw [Option.mem_toList, Option.mem_def] at h1
      exact ⟨_, goodSeed_before hs (6 + extra) (hday - 1), h1⟩
    · rw [Option.mem_toList, Option.mem_def] at h2
      exact ⟨_, goodSeed_after hs (6 + extra) (hday + 1), h2⟩
    · rw [Option.mem_toList, Option.mem_def] at h3
      exact ⟨_, goodSeed_combined hs (6 + extra) hday, h3⟩

theorem selectGo_selected_mem (tl : ℤ) :
    ∀ (l : List Opportunity) (st : SelState) (o : Opportunity),
      o ∈ (selectGo tl st l).selected → o ∈ st.selected ∨ o ∈ l := by
  intro l
  induction l with
  | nil => intro st o h; exact Or.inl h
  | cons x xs ih =>
    intro st o h
    simp only [selectGo] at h
    by_cases hr : rejectB tl st x = true
    · rw [if_pos hr] at h
      rcases ih st o h with h' | h'
      · exact Or.inl h'
      · exact Or.inr (List.mem_cons_of_mem x h')
    · rw [if_neg hr] at h
      rcases ih (acceptOpp st x) o h with h' | h'
      · simp only [acceptOpp, List.mem_append, List.mem_singleton] at h'
        rcases h' with h' | h'
        · exact Or.inl h'
        · exact Or.inr (h' ▸ List.mem_cons_self x xs)
      · exact Or.inr (List.mem_cons_of_mem x h')

theorem normalizedHolidaysOf_mem (hs : List ℤ) (x : ℤ) :
    x ∈ normalizedHolidaysOf hs ↔ x ∈ hs := by
  unfold normalizedHolidaysOf
  rw [sortBy_mem, map_normalize]

/-- Every recommendation of `optimizeLeaves` is the projection of an
opportunity produced by `buildOpportunity` from a strictly ascending
working-day seed anchored at a non-weekend holiday. -/
theorem rec_provenance (hs : List ℤ) (tl : ℤ) (s p : Bool)
    (r : LeaveRecommendation)
    (hr : r ∈ (optimizeLeaves hs tl s p).recommendations) :
    ∃ o, r = toRecommendation o ∧ ∃ hday seed,
      hday ∈ normalizedHolidaysOf hs ∧ isWeekend hday = false ∧
      GoodSeed (normalizedHolidaysOf hs) seed ∧
      buildOpportunityF 0 seed (normalizedHolidaysOf hs) hday = some o := by
  unfold optimizeLeaves optimizeLeavesF at hr
  by_cases hg : (hs.isEmpty || decide (tl ≤ 0)) = true
  · rw [if_pos hg] at hr; simp [emptyResult] at hr
  · rw [if_neg hg] at hr
    simp only [resultOf] at hr
    rw [List.mem_map] at hr
    obtain ⟨o, ho, rfl⟩ := hr
    refine ⟨o, rfl, ?_⟩
    unfold finalStateOf at ho
    have h1 := selectGo_selected_mem tl _ _ o ho
    simp only [List.not_mem_nil, false_or] at h1
    rw [sortBy_mem] at h1
    unfold opportunitiesOf at h1
    rw [flatMapL_mem] at h1
    obtain ⟨hday, hh, hfind⟩ := h1
    obtain ⟨hwk, seed, hgs, hbuild⟩ := find_mem 0 hday _ o hfind
    exact ⟨hday, seed, hh, hwk, hgs, hbuild⟩

/-! ## Selector invariants -/

theorem selectGo_usedLeaves (tl : ℤ) :
    ∀ (l : List Opportunity) (st : SelState),
      st.usedLeaves = ((st.selected.map (fun o => (o.leaveDates.length : ℤ))).sum) →
      (selectGo tl st l).usedLeaves =
        (((selectGo tl st l).selected.map (fun o => (o.leaveDates.length : ℤ))).sum) := by
  intro l
  induction l with
  | nil => intro st h; exact h
  | cons x xs ih =>
    intro st h
    simp only [selectGo]
    by_cases hr : rejectB tl st x = true
    · rw [if_pos hr]; exact ih st h
    · rw [if_neg hr]
      apply ih
      simp only [acceptOpp, List.map_append, List.sum_append, List.map_cons,
        List.map_nil, List.sum_cons, List.sum_nil, List.length_map]
      rw [h]
      ring

theorem rejectB_false_fresh {tl : ℤ} {st : SelState} {x : Opportunity}
    (hr : rejectB tl st x = false) : ∀ d ∈ x.leaveDates, d ∉ st.used := by
  intro d hd hdu
  rw [Bool.eq_false_iff] at hr
  apply hr
  unfold rejectB
  rw [Bool.or_eq_true]
  left
  rw [List.any_eq_true]
  refine ⟨d, ?_, ?_⟩
  · rw [map_normalize]; exact hd
  · rw [contains_iff]; exact hdu

/-- Distinct selected opportunities never share a leave day. -/
def DisjOpp (o₁ o₂ : Opportunity) : Prop :=
  ∀ d, d ∈ o₁.leaveDates → d ∉ o₂.leaveDates

theorem selectGo_disjoint (tl : ℤ) :
    ∀ (l : List Opportunity) (st : SelState),
      (∀ o ∈ st.selected, ∀ d ∈ o.leaveDates, d ∈ st.used) →
      List.Pairwise DisjOpp st.selected →
      List.Pairwise DisjOpp (selectGo tl st l).selected := by
  intro l
  induction l with
  | nil => intro st _ h2; exact h2
  | cons x xs ih =>
    intro st h1 h2
    simp only [selectGo]
    by_cases hr : rejectB tl st x = true
    · rw [if_pos hr]; exact ih st h1 h2
    · rw [if_neg hr]
      rw [Bool.not_eq_true] at hr
      apply ih
      · intro o ho d hd
        simp only [acceptOpp, List.mem_append, List.mem_singleton] at ho ⊢
        rcases ho with ho | ho
        · exact Or.inl (h1 o ho d hd)
        · right; rw [map_normalize]; rw [ho] at hd; exact hd
      · simp only [acceptOpp]
        rw [List.pairwise_append]
        refine ⟨h2, by simp, ?_⟩
        intro a ha b hb
        rw [List.mem_singleton] at hb
        intro d hd
        rw [hb]
        intro hdx
        exact (rejectB_false_fresh hr d hdx) (h1 a ha d hd)

/-! ## Claim theorems: budget, disjointness, degenerate input -/

/-- C3: for every input (including degenerate ones), the sum of `leavesUsed`
over the recommendations plus `leavesRemaining` equals the given budget. -/
theorem budget_conservation (hs : List ℤ) (tl : ℤ) (s p : Bool) :
    (((optimizeLeaves hs tl s p).recommendations.map (fun r => r.leavesUsed)).sum)
      + (optimizeLeaves hs tl s p).leavesRemaining = tl := by
  unfold optimizeLeaves optimizeLeavesF
  by_cases hg : (hs.isEmpty || decide (tl ≤ 0)) = true
  · rw [if_pos hg]; simp [emptyResult]
  · rw [if_neg hg]
    simp only [resultOf]
    unfold finalStateOf
    have h := selectGo_usedLeaves tl (sortBy (oppLE p) (opportunitiesOf 0 hs))
      ⟨[], 0, []⟩ (by simp)
    have hmap : ((selectGo tl ⟨[], 0, []⟩
        (sortBy (oppLE p) (opportunitiesOf 0 hs))).selected.map
          toRecommendation).map (fun r => r.leavesUsed) =
        (selectGo tl ⟨[], 0, []⟩
        (sortBy (oppLE p) (opportunitiesOf 0 hs))).selected.map
          (fun o => (o.leaveDates.length : ℤ)) := by
      rw [List.map_map]; rfl
    rw [hmap, ← h]
    ring

/-- C4: no calendar day appears in the `leaveDates` of two distinct
recommendations. -/
theorem no_double_booking (hs : List ℤ) (tl : ℤ) (s p : Bool) :
    List.Pairwise (fun r₁ r₂ => ∀ d, d ∈ r₁.leaveDates → d ∉ r₂.leaveDates)
      (optimizeLeaves hs tl s p).recommendations := by
  unfold optimizeLeaves optimizeLeavesF
  by_cases hg : (hs.isEmpty || decide (tl ≤ 0)) = true
  · rw [if_pos hg]; simp [emptyResult]
  · rw [if_neg hg]
    simp only [resultOf]
    unfold finalStateOf
    rw [List.pairwise_map]
    exact List.Pairwise.imp (fun hab => hab)
      (selectGo_disjoint tl _ ⟨[], 0, []⟩ (by simp) (by simp))

/-- C8: an empty holiday list or a non-positive budget short-circuits to the
empty result, with `leavesRemaining` echoing the budget. -/
theorem degenerate_short_circuit (hs : List ℤ) (tl : ℤ) (s p : Bool)
    (h : hs = [] ∨ tl ≤ 0) :
    optimizeLeaves hs tl s p =
      { recommendations := [], optimizedLeaves := [], totalVacations := 0,
        longestBreak := 0, leavesRemaining := tl } := by
  unfold optimizeLeaves optimizeLeavesF
  rw [if_pos]
  · rfl
  · rcases h with h | h
    · simp [h]
    · simp [h]

/-- C8 witness: the concrete empty-input scenario from the specification. -/
theorem degenerate_short_circuit_witness :
    optimizeLeaves [] 10 true false =
      { recommendations := [], optimizedLeaves := [], totalVacations := 0,
        longestBreak := 0, leavesRemaining := 10 } :=
  degenerate_short_circuit [] 10 true false (Or.inl rfl)

/-! ## Claim theorems: per-recommendation span properties -/

/-- C9: every leave date of a recommendation lies inside its span. -/
theorem span_containment (hs : List ℤ) (tl : ℤ) (s p : Bool)
    (r : LeaveRecommendation)
    (hr : r ∈ (optimizeLeaves hs tl s p).recommendations) :
    ∀ d ∈ r.leaveDates, r.startDate ≤ d ∧ d ≤ r.endDate := by
  obtain ⟨o, rfl, hday, seed, hmem, hwk, hgs, hbuild⟩ :=
    rec_provenance hs tl s p r hr
  obtain ⟨hld, hsd, hed, _⟩ := buildOpp_some_spec _ _ _ _ _ hbuild
  intro d hd
  simp only [toRecommendation] at hd ⊢
  rw [hld] at hd
  constructor
  · rw [hsd]
    calc (extendToFullVacationF 0 seed (normalizedHolidaysOf hs) hday).1
        ≤ seed.foldl min hday := extendVac_fst_le _ _ _ _
      _ ≤ d := foldl_min_le_mem seed hday d hd
  · rw [hed]
    calc d ≤ seed.foldl max hday := foldl_max_mem_le seed hday d hd
      _ ≤ (extendToFullVacationF 0 seed (normalizedHolidaysOf hs) hday).2 :=
          extendVac_snd_ge _ _ _ _

/-- C10: every recommended leave date is a working day of the original
calendar — neither a weekend day nor an input holiday. -/
theorem leaves_are_working_days (hs : List ℤ) (tl : ℤ) (s p : Bool)
    (r : LeaveRecommendation)
    (hr : r ∈ (optimizeLeaves hs tl s p).recommendations) :
    ∀ d ∈ r.leaveDates, isWeekend d = false ∧ isHoliday d hs = false := by
  obtain ⟨o, rfl, hday, seed, hmem, hwk, hgs, hbuild⟩ :=
    rec_provenance hs tl s p r hr
  obtain ⟨hld, _⟩ := buildOpp_some_spec _ _ _ _ _ hbuild
  intro d hd
  simp only [toRecommendation] at hd
  rw [hld] at hd
  have hw := hgs.2 d hd
  rw [isWorkingDay_true_iff] at hw
  refine ⟨hw.1, ?_⟩
  have hcongr := isHoliday_congr d (fun x => normalizedHolidaysOf_mem hs x)
  rw [← hcongr]
  exact hw.2

/-- C1 (amended): the day before `startDate` and the day after `endDate` are
not off-days with respect to weekends, holidays, and the recommendation's
own leave dates. -/
theorem span_maximality_own (hs : List ℤ) (tl : ℤ) (s p : Bool)
    (r : LeaveRecommendation)
    (hr : r ∈ (optimizeLeaves hs tl s p).recommendations) :
    isOffDay hs r.leaveDates (r.startDate - 1) = false ∧
    isOffDay hs r.leaveDates (r.endDate + 1) = false := by
  obtain ⟨o, rfl, hday, seed, hmem, hwk, hgs, hbuild⟩ :=
    rec_provenance hs tl s p r hr
  obtain ⟨hld, hsd, hed, _⟩ := buildOpp_some_spec _ _ _ _ _ hbuild
  simp only [toRecommendation]
  rw [hld, hsd, hed]
  constructor
  · rw [← isOffDay_congr seed _ (fun x => normalizedHolidaysOf_mem hs x)]
    exact extendVac_fst_off _ _ _ _
  · rw [← isOffDay_congr seed _ (fun x => normalizedHolidaysOf_mem hs x)]
    exact extendVac_snd_off _ _ _ _

theorem getDateRange_length (s e : ℤ) :
    ((getDateRange s e).length : ℤ) = max (e + 1 - s) 0 := by
  unfold getDateRange
  rw [List.length_map, List.length_range]
  omega

theorem getDateRange_mem (s e x : ℤ) :
    x ∈ getDateRange s e ↔ s ≤ x ∧ x ≤ e := by
  unfold getDateRange
  simp only [List.mem_map, List.mem_range]
  constructor
  · rintro ⟨i, hi, rfl⟩
    omega
  · rintro ⟨h1, h2⟩
    refine ⟨(x - s).toNat, by omega, by omega⟩

/-- C7: the statistics of every non-null opportunity are consistent —
`totalDays` is the inclusive day count of the span (with the span
non-degenerate, so `totalDays = endDate - startDate + 1`), `bonusDays` and
`efficiency` are derived from it, the leave count is positive — and every
recommendation inherits the corresponding fields. -/
theorem opportunity_arithmetic :
    (∀ (ld hs : List ℤ) (a : ℤ) (o : Opportunity),
      buildOpportunityF 0 ld hs a = some o →
      o.totalDays = ((getDateRange o.startDate o.endDate).length : ℤ) ∧
      o.startDate ≤ o.endDate ∧
      o.totalDays = o.endDate - o.startDate + 1 ∧
      o.bonusDays = o.totalDays - (o.leaveDates.length : ℤ) ∧
      o.efficiency = (o.totalDays : ℚ) / ((o.leaveDates.length : ℤ) : ℚ) ∧
      0 < o.leaveDates.length) ∧
    (∀ (hs : List ℤ) (tl : ℤ) (s p : Bool) (r : LeaveRecommendation),
      r ∈ (optimizeLeaves hs tl s p).recommendations →
      r.totalDays = ((getDateRange r.startDate r.endDate).length : ℤ) ∧
      r.totalDays = r.endDate - r.startDate + 1 ∧
      0 < r.leaveDates.length ∧ r.leavesUsed = (r.leaveDates.length : ℤ)) := by
  have hbase : ∀ (ld hs : List ℤ) (a : ℤ) (o : Opportunity),
      buildOpportunityF 0 ld hs a = some o →
      o.totalDays = ((getDateRange o.startDate o.endDate).length : ℤ) ∧
      o.startDate ≤ o.endDate ∧
      o.totalDays = o.endDate - o.startDate + 1 ∧
      o.bonusDays = o.totalDays - (o.leaveDates.length : ℤ) ∧
      o.efficiency = (o.totalDays : ℚ) / ((o.leaveDates.length : ℤ) : ℚ) ∧
      0 < o.leaveDates.length := by
    intro ld hs a o h
    obtain ⟨hld, hsd, hed, htd, hbd, heff, hne, _⟩ := buildOpp_some_spec _ _ _ _ _ h
    have hse : o.startDate ≤ o.endDate := by
      rw [hsd, hed]
      have h1 := extendVac_fst_le 0 ld hs a
      have h2 := extendVac_snd_ge 0 ld hs a
      have h3 := foldl_min_le_init ld a
      have h4 := foldl_max_init_le ld a
      omega
    refine ⟨htd, hse, ?_, ?_, ?_, ?_⟩
    · rw [htd, getDateRange_length]
      omega
    · rw [hbd, hld]
    · rw [heff, hld]
    · rw [hld]
      exact List.length_pos.2 hne
  refine ⟨hbase, ?_⟩
  intro hs tl s p r hr
  obtain ⟨o, rfl, hday, seed, hmem, hwk, hgs, hbuild⟩ :=
    rec_provenance hs tl s p r hr
  obtain ⟨htd, hse, harith, _, _, hpos⟩ := hbase _ _ _ _ hbuild
  exact ⟨htd, harith, hpos, rfl⟩

/-! ## The consecutive-leave cap implies absence of long working-day runs -/

theorem run_step (hs : List ℤ) (x : ℤ) (rest' : List ℤ) (streak' : ℕ)
    (hstreak' : 1 ≤ streak')
    (hsort' : List.Pairwise (· < ·) (x :: rest'))
    (chainX : ∀ j : ℕ, 1 ≤ j → 3 < streak' + j →
      ¬ (∀ i : ℕ, 1 ≤ i → i ≤ j →
        ((x + (i : ℤ)) ∈ rest' ∧ isWorkingDay (x + (i : ℤ)) hs = true)))
    (runR : ∀ d : ℤ, ¬ (d ∈ rest' ∧
      ((d + 1) ∈ rest' ∧ isWorkingDay (d + 1) hs = true) ∧
      ((d + 2) ∈ rest' ∧ isWorkingDay (d + 2) hs = true) ∧
      ((d + 3) ∈ rest' ∧ isWorkingDay (d + 3) hs = true))) :
    ∀ d : ℤ, ¬ (d ∈ x :: rest' ∧
      ((d + 1) ∈ x :: rest' ∧ isWorkingDay (d + 1) hs = true) ∧
      ((d + 2) ∈ x :: rest' ∧ isWorkingDay (d + 2) hs = true) ∧
      ((d + 3) ∈ x :: rest' ∧ isWorkingDay (d + 3) hs = true)) := by
  rintro d ⟨hd, h1, h2, h3⟩
  have hxlt : ∀ y ∈ rest', x < y := (List.pairwise_cons.1 hsort').1
  have hmemr : ∀ z : ℤ, z ∈ x :: rest' → x < z → z ∈ rest' := by
    intro z hz hlt
    rcases List.mem_cons.1 hz with h | h
    · omega
    · exact h
  rcases List.mem_cons.1 hd with hdx | hdx
  · rw [hdx] at h1 h2 h3
    apply chainX 3 (by omega) (by omega)
    intro i hi1 hi3
    have hi : i = 1 ∨ i = 2 ∨ i = 3 := by omega
    rcases hi with rfl | rfl | rfl
    · push_cast
      exact ⟨hmemr _ h1.1 (by omega), h1.2⟩
    · push_cast
      exact ⟨hmemr _ h2.1 (by omega), h2.2⟩
    · push_cast
      exact ⟨hmemr _ h3.1 (by omega), h3.2⟩
  · apply runR d
    have hxd : x < d := hxlt d hdx
    exact ⟨hdx, ⟨hmemr _ h1.1 (by omega), h1.2⟩,
      ⟨hmemr _ h2.1 (by omega), h2.2⟩, ⟨hmemr _ h3.1 (by omega), h3.2⟩⟩

theorem exceedsLoop_no_chain (hs : List ℤ) :
    ∀ (rest : List ℤ) (prev : ℤ) (streak : ℕ), 1 ≤ streak →
      exceedsLoop hs 3 prev streak rest = false →
      List.Pairwise (· < ·) (prev :: rest) →
      ((∀ j : ℕ, 1 ≤ j → 3 < streak + j →
        ¬ (∀ i : ℕ, 1 ≤ i → i ≤ j →
          ((prev + (i : ℤ)) ∈ rest ∧ isWorkingDay (prev + (i : ℤ)) hs = true))) ∧
      (∀ d : ℤ, ¬ (d ∈ rest ∧
        ((d + 1) ∈ rest ∧ isWorkingDay (d + 1) hs = true) ∧
        ((d + 2) ∈ rest ∧ isWorkingDay (d + 2) hs = true) ∧
        ((d + 3) ∈ rest ∧ isWorkingDay (d + 3) hs = true)))) := by
  intro rest
  induction rest with
  | nil =>
    intro prev streak _ _ _
    constructor
    · intro j hj1 _ hchain
      exact List.not_mem_nil _ (hchain 1 le_rfl hj1).1
    · rintro d ⟨hd, _⟩
      exact List.not_mem_nil _ hd
  | cons x rest' ih =>
    intro prev streak hstreak hfalse hsort
    have hpx : prev < x := (List.pairwise_cons.1 hsort).1 x (by simp)
    have hsort' : List.Pairwise (· < ·) (x :: rest') := (List.pairwise_cons.1 hsort).2
    by_cases hc : (x - prev == 1 && isWorkingDay x hs) = true
    · have hc' := hc
      rw [Bool.and_eq_true] at hc'
      have hx1 : x = prev + 1 := by
        have h' := hc'.1
        rw [beq_iff_eq] at h'
        omega
      have hxw : isWorkingDay x hs = true := hc'.2
      simp only [exceedsLoop, hc, if_true] at hfalse
      by_cases hstk : streak + 1 > 3
      · rw [if_pos hstk] at hfalse; cases hfalse
      · rw [if_neg hstk] at hfalse
        obtain ⟨chainX, runR⟩ := ih x (streak + 1) (by omega) hfalse hsort'
        constructor
        · intro j hj1 hj3 hchain
          rcases Nat.eq_or_lt_of_le hj1 with hj | hj
          · exact absurd (by omega : 3 < streak + 1) hstk
          · apply chainX (j - 1) (by omega) (by omega)
            intro i hi1 hij
            have hc2 := hchain (i + 1) (by omega) (by omega)
            have harith : prev + ((i + 1 : ℕ) : ℤ) = x + (i : ℤ) := by
              push_cast; omega
            rw [harith] at hc2
            obtain ⟨hmem2, hw2⟩ := hc2
            refine ⟨?_, hw2⟩
            rcases List.mem_cons.1 hmem2 with hm | hm
            · exfalso
              have hi1' : (1 : ℤ) ≤ (i : ℤ) := by exact_mod_cast hi1
              omega
            · exact hm
        · exact run_step hs x rest' (streak + 1) (by omega) hsort' chainX runR
    · have hcf : (x - prev == 1 && isWorkingDay x hs) = false := by
        rw [← Bool.not_eq_true]; exact hc
      simp only [exceedsLoop, hcf, Bool.false_eq_true, if_false] at hfalse
      obtain ⟨chainX, runR⟩ := ih x 1 le_rfl hfalse hsort'
      constructor
      · intro j hj1 hj3 hchain
        have hc1 := hchain 1 le_rfl hj1
        push_cast at hc1
        obtain ⟨hm1, hw1⟩ := hc1
        have hx1 : x = prev + 1 := by
          rcases List.mem_cons.1 hm1 with h' | h'
          · omega
          · have := (List.pairwise_cons.1 hsort').1 _ h'
            omega
        apply hc
        rw [Bool.and_eq_true]
        refine ⟨by rw [beq_iff_eq]; omega, ?_⟩
        rw [hx1]
        exact hw1
      · exact run_step hs x rest' 1 le_rfl hsort' chainX runR

theorem exceeds_no_run (hs l : List ℤ) (hl : List.Pairwise (· < ·) l)
    (h : exceedsMaxConsecutiveLeaves l hs = false) :
    ∀ d : ℤ, ¬ (d ∈ l ∧
      ((d + 1) ∈ l ∧ isWorkingDay (d + 1) hs = true) ∧
      ((d + 2) ∈ l ∧ isWorkingDay (d + 2) hs = true) ∧
      ((d + 3) ∈ l ∧ isWorkingDay (d + 3) hs = true)) := by
  unfold exceedsMaxConsecutiveLeaves at h
  rw [map_normalize, sortBy_of_pairwise intLE l
    (hl.imp (fun hab => by simp only [intLE, decide_eq_true_eq]; omega))] at h
  cases l with
  | nil =>
    rintro d ⟨hd, _⟩
    exact List.not_mem_nil _ hd
  | cons first rest =>
    obtain ⟨chainF, runF⟩ := exceedsLoop_no_chain hs rest first 1 le_rfl h hl
    exact run_step hs first rest 1 le_rfl hl chainF runF

/-- C5: no recommendation's leave dates contain more than 3 consecutive
calendar days that are all working days of the original calendar. -/
theorem consecutive_leave_cap (hs : List ℤ) (tl : ℤ) (s p : Bool)
    (r : LeaveRecommendation)
    (hr : r ∈ (optimizeLeaves hs tl s p).recommendations) :
    ¬ ∃ d : ℤ,
      (d ∈ r.leaveDates ∧ isWorkingDay d hs = true) ∧
      ((d + 1) ∈ r.leaveDates ∧ isWorkingDay (d + 1) hs = true) ∧
      ((d + 2) ∈ r.leaveDates ∧ isWorkingDay (d + 2) hs = true) ∧
      ((d + 3) ∈ r.leaveDates ∧ isWorkingDay (d + 3) hs = true) := by
  obtain ⟨o, rfl, hday, seed, hmem, hwk, hgs, hbuild⟩ :=
    rec_provenance hs tl s p r hr
  obtain ⟨hld, _, _, _, _, _, _, hex, _⟩ := buildOpp_some_spec _ _ _ _ _ hbuild
  rintro ⟨d, ⟨hd0, _⟩, ⟨hd1, hw1⟩, ⟨hd2, hw2⟩, ⟨hd3, hw3⟩⟩
  simp only [toRecommendation] at hd0 hd1 hd2 hd3
  rw [hld] at hd0 hd1 hd2 hd3
  have hcongr : ∀ z : ℤ, isWorkingDay z hs = isWorkingDay z (normalizedHolidaysOf hs) :=
    fun z => isWorkingDay_congr z (fun x => (normalizedHolidaysOf_mem hs x).symm)
  apply exceeds_no_run (normalizedHolidaysOf hs) seed hgs.1 hex d
  exact ⟨hd0, ⟨hd1, by rw [← hcongr]; exact hw1⟩,
    ⟨hd2, by rw [← hcongr]; exact hw2⟩, ⟨hd3, by rw [← hcongr]; exact hw3⟩⟩

/-! ## Concrete sample runs

Two Tuesday holidays one week apart (day 1 and day 8; day 0 is a Monday)
with budget 8 and `preferLonger = true` select the two combined candidates:
leave days `[0, 2, 3, 4]` spanning `[-2, 6]` and leave days `[7, 9, 10, 11]`
spanning `[5, 13]`. -/

def sampleRec : LeaveRecommendation :=
  { leaveDates := [0, 2, 3, 4], startDate := -2, endDate := 6, totalDays := 9,
    leavesUsed := 4,
    description := "Take 4 leave day(s) to get 9 continuous days off" }

def oSample : Opportunity :=
  { leaveDates := [2], startDate := 1, endDate := 2, totalDays := 2,
    bonusDays := 1, efficiency := ((2 : ℤ) : ℚ) / ((1 : ℤ) : ℚ) }

/-- C1 counterexample: maximality fails when "off-day" counts leave dates
selected in *other* recommendations.  On holidays `[1, 8]` with budget 8 and
`preferLonger`, the first recommendation ends on day 6 while day 7 is a
selected leave day of the second recommendation (and symmetrically day 4,
the day before the second recommendation's start, is a selected leave). -/
theorem global_maximality_counterexample :
    ¬ (∀ r ∈ (optimizeLeaves [1, 8] 8 true true).recommendations,
      (isWeekend (r.startDate - 1) || isHoliday (r.startDate - 1) [1, 8] ||
        (optimizeLeaves [1, 8] 8 true true).optimizedLeaves.contains
          (r.startDate - 1)) = false ∧
      (isWeekend (r.endDate + 1) || isHoliday (r.endDate + 1) [1, 8] ||
        (optimizeLeaves [1, 8] 8 true true).optimizedLeaves.contains
          (r.endDate + 1)) = false) := by
  decide

/-- C1 (amended) witness at the sample input. -/
theorem span_maximality_own_witness :
    isOffDay [1, 8] sampleRec.leaveDates (sampleRec.startDate - 1) = false ∧
    isOffDay [1, 8] sampleRec.leaveDates (sampleRec.endDate + 1) = false :=
  span_maximality_own [1, 8] 8 true true sampleRec (by decide)

/-- C5 witness at the sample input. -/
theorem consecutive_leave_cap_witness :
    ¬ ∃ d : ℤ,
      (d ∈ sampleRec.leaveDates ∧ isWorkingDay d [1, 8] = true) ∧
      ((d + 1) ∈ sampleRec.leaveDates ∧ isWorkingDay (d + 1) [1, 8] = true) ∧
      ((d + 2) ∈ sampleRec.leaveDates ∧ isWorkingDay (d + 2) [1, 8] = true) ∧
      ((d + 3) ∈ sampleRec.leaveDates ∧ isWorkingDay (d + 3) [1, 8] = true) :=
  consecutive_leave_cap [1, 8] 8 true true sampleRec (by decide)

/-- C7 witness: a concrete non-null opportunity. -/
theorem opportunity_arithmetic_witness :
    oSample.totalDays = ((getDateRange oSample.startDate oSample.endDate).length : ℤ) ∧
    oSample.startDate ≤ oSample.endDate ∧
    oSample.totalDays = oSample.endDate - oSample.startDate + 1 ∧
    oSample.bonusDays = oSample.totalDays - (oSample.leaveDates.length : ℤ) ∧
    oSample.efficiency = (oSample.totalDays : ℚ) / ((oSample.leaveDates.length : ℤ) : ℚ) ∧
    0 < oSample.leaveDates.length :=
  opportunity_arithmetic.1 [2] [1] 1 oSample rfl

/-- C9 witness at the sample input. -/
theorem span_containment_witness :
    sampleRec.startDate ≤ 0 ∧ (0 : ℤ) ≤ sampleRec.endDate :=
  span_containment [1, 8] 8 true true sampleRec (by decide) 0 (by decide)

/-- C10 witness at the sample input. -/
theorem leaves_are_working_days_witness :
    isWeekend 0 = false ∧ isHoliday 0 [1, 8] = false :=
  leaves_are_working_days [1, 8] 8 true true sampleRec (by decide) 0 (by decide)

/-! ## Totality: the result does not depend on the loop fuel -/

theorem buildOpp_stable (extra : ℕ) (ld hs : List ℤ) (a : ℤ) :
    buildOpportunityF extra ld hs a = buildOpportunityF 0 ld hs a := by
  unfold buildOpportunityF
  rw [extendVac_stable]

theorem find_stable (extra : ℕ) (hday : ℤ) (hs : List ℤ) :
    findOpportunitiesAroundHolidayF extra hday hs =
      findOpportunitiesAroundHolidayF 0 hday hs := by
  unfold findOpportunitiesAroundHolidayF
  rw [collectBefore_six hs (6 + extra) (hday - 1) (by omega),
    collectAfter_six hs (6 + extra) (hday + 1) (by omega),
    collectBefore_six hs (6 + 0) (hday - 1) (by omega),
    collectAfter_six hs (6 + 0) (hday + 1) (by omega)]
  simp only [buildOpp_stable]

theorem opportunities_stable (extra : ℕ) (hs : List ℤ) :
    opportunitiesOf extra hs = opportunitiesOf 0 hs := by
  unfold opportunitiesOf
  exact flatMapL_congr _ _ (fun h => find_stable extra h _) _

/-- C6: `optimizeLeaves` is total.  Every source `while` loop is embedded
with an explicit fuel bound; enlarging every bound by an arbitrary `extra`
never changes the result (the loops reach their exit condition within the
bound), and the fuel-stability of the individual walks and span-expansion
loops is stated alongside. -/
theorem optimizeLeaves_total :
    (∀ (extra : ℕ) (hs : List ℤ) (tl : ℤ) (s p : Bool),
      optimizeLeavesF extra hs tl s p = optimizeLeaves hs tl s p) ∧
    (∀ (hs : List ℤ) (d : ℤ) (n : ℕ), 6 ≤ n →
      collectBefore hs n d = collectBefore hs 6 d ∧
      collectAfter hs n d = collectAfter hs 6 d) ∧
    (∀ (extra : ℕ) (ld hs : List ℤ) (a : ℤ),
      extendToFullVacationF extra ld hs a = extendToFullVacationF 0 ld hs a) := by
  refine ⟨?_, ?_, ?_⟩
  · intro extra hs tl s p
    unfold optimizeLeaves optimizeLeavesF finalStateOf
    rw [opportunities_stable]
  · intro hs d n hn
    exact ⟨collectBefore_six hs n d hn, collectAfter_six hs n d hn⟩
  · intro extra ld hs a
    exact extendVac_stable extra ld hs a

/-- C6 witness: the fuel-stability facts applied at a concrete input. -/
theorem optimizeLeaves_total_witness :
    collectBefore [1] 7 0 = collectBefore [1] 6 0 ∧
    collectAfter [1] 7 0 = collectAfter [1] 6 0 :=
  optimizeLeaves_total.2.1 [1] 0 7 (by omega)

/-! ## Erasure of later duplicates

`Era seen X Y` says `Y` is `X` with some elements removed, where every
removed element already occurs in the ambient context `seen` (which grows
with every kept element).  Duplicated holidays produce exactly such an
erasure of the opportunity stream, and both the stable sort and the greedy
selector are invariant under it. -/

inductive Era : List α → List α → List α → Prop
  | nil (seen : List α) : Era seen [] []
  | keep (seen : List α) (x : α) (xs ys : List α) :
      Era (x :: seen) xs ys → Era seen (x :: xs) (x :: ys)
  | drop (seen : List α) (x : α) (xs ys : List α) :
      x ∈ seen → Era seen xs ys → Era seen (x :: xs) ys

theorem era_mono : ∀ {seen₁ X Y : List α}, Era seen₁ X Y →
    ∀ {seen₂ : List α}, (∀ z ∈ seen₁, z ∈ seen₂) → Era seen₂ X Y := by
  intro seen₁ X Y h
  induction h with
  | nil seen => intro seen₂ _; exact Era.nil _
  | keep seen x xs ys h ih =>
    intro seen₂ hsub
    refine Era.keep _ _ _ _ (ih ?_)
    intro z hz
    rcases List.mem_cons.1 hz with hz | hz
    · rw [hz]; exact List.mem_cons_self _ _
    · exact List.mem_cons_of_mem _ (hsub z hz)
  | drop seen x xs ys hx h ih =>
    intro seen₂ hsub
    exact Era.drop _ _ _ _ (hsub x hx) (ih hsub)

theorem era_removeDups [DecidableEq α] :
    ∀ (l seen : List α), Era seen l (removeDups seen l) := by
  intro l
  induction l with
  | nil => intro seen; exact Era.nil seen
  | cons x xs ih =>
    intro seen
    by_cases hx : x ∈ seen
    · simp only [removeDups, if_pos hx]
      exact Era.drop _ _ _ _ hx (ih seen)
    · simp only [removeDups, if_neg hx]
      exact Era.keep _ _ _ _ (ih (x :: seen))

theorem era_sub : ∀ {seen X Y : List α}, Era seen X Y → ∀ y ∈ Y, y ∈ X := by
  intro seen X Y h
  induction h with
  | nil => intro y hy; exact absurd hy (List.not_mem_nil _)
  | keep seen x xs ys h ih =>
    intro y hy
    rcases List.mem_cons.1 hy with hy | hy
    · rw [hy]; exact List.mem_cons_self _ _
    · exact List.mem_cons_of_mem _ (ih y hy)
  | drop seen x xs ys hx h ih =>
    intro y hy
    exact List.mem_cons_of_mem _ (ih y hy)

theorem era_append_mem : ∀ (P : List α) {seen A B : List α},
    (∀ p ∈ P, p ∈ seen) → Era seen A B → Era seen (P ++ A) B := by
  intro P
  induction P with
  | nil => intro seen A B _ h; exact h
  | cons p P' ih =>
    intro seen A B hp h
    exact Era.drop _ _ _ _ (hp p (by simp))
      (ih (fun q hq => hp q (by simp [hq])) h)

theorem era_append_common : ∀ (P : List α) {seen A B : List α},
    Era (P ++ seen) A B → Era seen (P ++ A) (P ++ B) := by
  intro P
  induction P with
  | nil => intro seen A B h; exact h
  | cons p P' ih =>
    intro seen A B h
    refine Era.keep _ _ _ _ (ih ?_)
    refine era_mono h ?_
    intro z hz
    simp only [List.cons_append, List.mem_cons, List.mem_append] at hz ⊢
    tauto

theorem era_flatMap (F : α → List β) :
    ∀ {seenH H₁ H₂ : List α}, Era seenH H₁ H₂ →
      ∀ (seenO : List β), (∀ h ∈ seenH, ∀ o ∈ F h, o ∈ seenO) →
      Era seenO (flatMapL F H₁) (flatMapL F H₂) := by
  intro seenH H₁ H₂ h
  induction h with
  | nil seen => intro seenO _; exact Era.nil _
  | keep seen x xs ys h ih =>
    intro seenO hcond
    show Era seenO (F x ++ flatMapL F xs) (F x ++ flatMapL F ys)
    apply era_append_common
    apply ih
    intro h' hh' o ho
    rcases List.mem_cons.1 hh' with hh | hh
    · rw [List.mem_append]; left; rw [← hh]; exact ho
    · rw [List.mem_append]; right; exact hcond h' hh o ho
  | drop seen x xs ys hx h ih =>
    intro seenO hcond
    show Era seenO (F x ++ flatMapL F xs) (flatMapL F ys)
    apply era_append_mem
    · intro o ho; exact hcond x hx o ho
    · exact ih seenO hcond

theorem era_insertBy_keep (le : α → α → Bool)
    (hrefl : ∀ a, le a a = true)
    (htrans : ∀ a b c, le a b = true → le b c = true → le a c = true) :
    ∀ (A : List α) {B : List α} (x : α) (s : List α),
      List.Pairwise (fun a b => le a b = true) A →
      Era (x :: s) A B → Era s (insertBy le x A) (insertBy le x B) := by
  intro A
  induction A with
  | nil =>
    intro B x s _ h
    cases h with
    | nil => exact Era.keep _ _ _ _ (Era.nil _)
  | cons a A' ih =>
    intro B x s hsort h
    rw [List.pairwise_cons] at hsort
    obtain ⟨ha, hsort'⟩ := hsort
    cases h with
    | keep _ _ _ ys h' =>
      by_cases hxa : le x a = true
      · simp only [insertBy, hxa, if_true]
        exact Era.keep _ _ _ _ (Era.keep _ _ _ _ h')
      · have hxa' : le x a = false := by rw [← Bool.not_eq_true]; exact hxa
        simp only [insertBy, hxa', Bool.false_eq_true, if_false]
        refine Era.keep _ _ _ _ (ih x (a :: s) hsort' ?_)
        refine era_mono h' ?_
        intro z hz
        simp only [List.mem_cons] at hz ⊢
        tauto
    | drop _ _ _ _ hxmem h' =>
      by_cases hxa : le x a = true
      · have hB : insertBy le x B = x :: B := by
          cases B with
          | nil => rfl
          | cons b B' =>
            have hb : b ∈ A' := era_sub h' b (List.mem_cons_self b B')
            have hab : le a b = true := ha b hb
            simp [insertBy, htrans x a b hxa hab]
        rw [hB]
        simp only [insertBy, hxa, if_true]
        exact Era.keep _ _ _ _ (Era.drop _ _ _ _ hxmem h')
      · have hxa' : le x a = false := by rw [← Bool.not_eq_true]; exact hxa
        simp only [insertBy, hxa', Bool.false_eq_true, if_false]
        have has : a ∈ s := by
          rcases List.mem_cons.1 hxmem with h'' | h''
          · exfalso; apply hxa; rw [h'']; exact hrefl x
          · exact h''
        exact Era.drop _ _ _ _ has (ih x s hsort' h')

theorem era_insertBy_drop (le : α → α → Bool) :
    ∀ (A : List α) {B : List α} (x : α) (s : List α), x ∈ s →
      Era s A B → Era s (insertBy le x A) B := by
  intro A
  induction A with
  | nil =>
    intro B x s hx h
    cases h with
    | nil => exact Era.drop _ _ _ _ hx (Era.nil _)
  | cons a A' ih =>
    intro B x s hx h
    cases h with
    | keep _ _ _ ys h' =>
      by_cases hxa : le x a = true
      · simp only [insertBy, hxa, if_true]
        exact Era.drop _ _ _ _ hx (Era.keep _ _ _ _ h')
      · have hxa' : le x a = false := by rw [← Bool.not_eq_true]; exact hxa
        simp only [insertBy, hxa', Bool.false_eq_true, if_false]
        exact Era.keep _ _ _ _ (ih x (a :: s) (List.mem_cons_of_mem _ hx) h')
    | drop _ _ _ _ hamem h' =>
      by_cases hxa : le x a = true
      · simp only [insertBy, hxa, if_true]
        exact Era.drop _ _ _ _ hx (Era.drop _ _ _ _ hamem h')
      · have hxa' : le x a = false := by rw [← Bool.not_eq_true]; exact hxa
        simp only [insertBy, hxa', Bool.false_eq_true, if_false]
        exact Era.drop _ _ _ _ hamem (ih x s hx h')

theorem era_sortBy (le : α → α → Bool)
    (hrefl : ∀ a, le a a = true)
    (htrans : ∀ a b c, le a b = true → le b c = true → le a c = true)
    (htotal : ∀ a b, le a b = true ∨ le b a = true) :
    ∀ {seen X Y : List α}, Era seen X Y →
      Era seen (sortBy le X) (sortBy le Y) := by
  intro seen X Y h
  induction h with
  | nil => exact Era.nil _
  | keep seen x xs ys h ih =>
    show Era seen (insertBy le x (sortBy le xs)) (insertBy le x (sortBy le ys))
    exact era_insertBy_keep le hrefl htrans (sortBy le xs) x seen
      (sortBy_sorted le htrans htotal xs) ih
  | drop seen x xs ys hx h ih =>
    show Era seen (insertBy le x (sortBy le xs)) (sortBy le ys)
    exact era_insertBy_drop le (sortBy le xs) x seen hx ih

/-! ## The greedy selector ignores erased duplicates -/

theorem rejectB_mono {tl : ℤ} {st st' : SelState} {o : Opportunity}
    (hused : ∀ k ∈ st.used, k ∈ st'.used)
    (hleq : st.usedLeaves ≤ st'.usedLeaves)
    (h : rejectB tl st o = true) : rejectB tl st' o = true := by
  unfold rejectB at h ⊢
  rw [Bool.or_eq_true] at h ⊢
  rcases h with h | h
  · left
    rw [List.any_eq_true] at h ⊢
    obtain ⟨k, hk, hc⟩ := h
    rw [contains_iff] at hc
    exact ⟨k, hk, by rw [contains_iff]; exact hused k hc⟩
  · right
    rw [decide_eq_true_eq] at h ⊢
    omega

theorem era_selectGo (tl : ℤ) :
    ∀ {seen X Y : List Opportunity}, Era seen X Y →
      ∀ (st : SelState), (∀ o ∈ seen, rejectB tl st o = true) →
      (∀ o ∈ X, o.leaveDates ≠ []) →
      selectGo tl st X = selectGo tl st Y := by
  intro seen X Y h
  induction h with
  | nil => intro st _ _; rfl
  | keep seen x xs ys h ih =>
    intro st hseen hne
    show selectGo tl st (x :: xs) = selectGo tl st (x :: ys)
    simp only [selectGo]
    by_cases hr : rejectB tl st x = true
    · rw [if_pos hr, if_pos hr]
      apply ih st
      · intro o ho
        rcases List.mem_cons.1 ho with ho | ho
        · rw [ho]; exact hr
        · exact hseen o ho
      · intro o ho; exact hne o (List.mem_cons_of_mem _ ho)
    · rw [if_neg hr, if_neg hr]
      apply ih (acceptOpp st x)
      · intro o ho
        rcases List.mem_cons.1 ho with ho | ho
        · rw [ho]
          unfold rejectB
          rw [Bool.or_eq_true]
          left
          rw [List.any_eq_true]
          have hnex : x.leaveDates ≠ [] := hne x (List.mem_cons_self _ _)
          obtain ⟨d, hd⟩ : ∃ d, d ∈ x.leaveDates := by
            cases hld : x.leaveDates with
            | nil => exact absurd hld hnex
            | cons d ds => exact ⟨d, List.mem_cons_self d ds⟩
          refine ⟨d, by rw [map_normalize]; exact hd, ?_⟩
          rw [contains_iff]
          simp only [acceptOpp, List.mem_append]
          right
          rw [map_normalize]
          exact hd
        · refine rejectB_mono ?_ ?_ (hseen o ho)
          · intro k hk
            simp only [acceptOpp, List.mem_append]
            exact Or.inl hk
          · simp only [acceptOpp]
            omega
      · intro o ho; exact hne o (List.mem_cons_of_mem _ ho)
  | drop seen x xs ys hx h ih =>
    intro st hseen hne
    show selectGo tl st (x :: xs) = selectGo tl st ys
    simp only [selectGo]
    rw [if_pos (hseen x hx)]
    apply ih st hseen
    intro o ho
    exact hne o (List.mem_cons_of_mem _ ho)

/-! ## The pipeline depends on the holiday list only through membership -/

theorem exceedsLoop_congr {hs₁ hs₂ : List ℤ}
    (hw : ∀ d, isWorkingDay d hs₁ = isWorkingDay d hs₂) (m : ℕ) :
    ∀ (l : List ℤ) (prev : ℤ) (streak : ℕ),
      exceedsLoop hs₁ m prev streak l = exceedsLoop hs₂ m prev streak l := by
  intro l
  induction l with
  | nil => intro prev streak; rfl
  | cons x xs ih =>
    intro prev streak
    simp only [exceedsLoop, hw x, ih]

theorem exceedsMax_congr {hs₁ hs₂ : List ℤ}
    (h : ∀ x, x ∈ hs₁ ↔ x ∈ hs₂) (l : List ℤ) :
    exceedsMaxConsecutiveLeaves l hs₁ = exceedsMaxConsecutiveLeaves l hs₂ := by
  unfold exceedsMaxConsecutiveLeaves
  cases sortBy intLE (l.map normalize) with
  | nil => rfl
  | cons f r => exact exceedsLoop_congr (fun d => isWorkingDay_congr d h) 3 r f 1

theorem hasHolidayAnchor_congr {hs₁ hs₂ : List ℤ}
    (h : ∀ x, x ∈ hs₁ ↔ x ∈ hs₂) (l : List ℤ) :
    hasHolidayAnchor l hs₁ = hasHolidayAnchor l hs₂ := by
  unfold hasHolidayAnchor
  apply any_congr_pred
  intro ld _
  apply any_congr_mem
  intro x
  simp only [List.mem_filter]
  rw [h x]

theorem buildOpp_congr (extra : ℕ) (ld : List ℤ) (a : ℤ) {hs₁ hs₂ : List ℤ}
    (h : ∀ x, x ∈ hs₁ ↔ x ∈ hs₂) :
    buildOpportunityF extra ld hs₁ a = buildOpportunityF extra ld hs₂ a := by
  unfold buildOpportunityF
  rw [exceedsMax_congr h, hasHolidayAnchor_congr h, extendVac_congr extra ld a h]

theorem collectBefore_congr {hs₁ hs₂ : List ℤ}
    (h : ∀ x, x ∈ hs₁ ↔ x ∈ hs₂) :
    ∀ (n : ℕ) (d : ℤ), collectBefore hs₁ n d = collectBefore hs₂ n d := by
  intro n
  induction n with
  | zero => intro d; rfl
  | succ n ih =>
    intro d
    simp only [collectBefore, isWorkingDay_congr d h, ih]

theorem collectAfter_congr {hs₁ hs₂ : List ℤ}
    (h : ∀ x, x ∈ hs₁ ↔ x ∈ hs₂) :
    ∀ (n : ℕ) (d : ℤ), collectAfter hs₁ n d = collectAfter hs₂ n d := by
  intro n
  induction n with
  | zero => intro d; rfl
  | succ n ih =>
    intro d
    simp only [collectAfter, isWorkingDay_congr d h, ih]

theorem find_congr (extra : ℕ) (hday : ℤ) {hs₁ hs₂ : List ℤ}
    (h : ∀ x, x ∈ hs₁ ↔ x ∈ hs₂) :
    findOpportunitiesAroundHolidayF extra hday hs₁ =
      findOpportunitiesAroundHolidayF extra hday hs₂ := by
  unfold findOpportunitiesAroundHolidayF
  rw [collectBefore_congr h, collectAfter_congr h,
    buildOpp_congr extra _ hday h, buildOpp_congr extra _ hday h,
    buildOpp_congr extra _ hday h]

theorem removeDups_mem [DecidableEq α] :
    ∀ (l seen : List α) (x : α),
      x ∈ removeDups seen l ↔ (x ∈ l ∧ x ∉ seen) := by
  intro l
  induction l with
  | nil => intro seen x; simp [removeDups]
  | cons y ys ih =>
    intro seen x
    by_cases hy : y ∈ seen
    · simp only [removeDups, if_pos hy, ih, List.mem_cons]
      constructor
      · rintro ⟨hx, hxs⟩; exact ⟨Or.inr hx, hxs⟩
      · rintro ⟨hx | hx, hxs⟩
        · exact absurd (hx ▸ hy) hxs
        · exact ⟨hx, hxs⟩
    · simp only [removeDups, if_neg hy, List.mem_cons, ih]
      constructor
      · rintro (hxy | ⟨hx, hxs⟩)
        · exact ⟨Or.inl hxy, hxy ▸ hy⟩
        · exact ⟨Or.inr hx, fun hm => hxs (Or.inr hm)⟩
      · rintro ⟨hx | hx, hxs⟩
        · exact Or.inl hx
        · by_cases hxy : x = y
          · exact Or.inl hxy
          · right
            refine ⟨hx, ?_⟩
            rintro (hm | hm)
            · exact hxy hm
            · exact hxs hm

/-- C2: de-duplicating the holiday list (keeping first occurrences) never
changes the result of `optimizeLeaves`.  Duplicated holidays produce
duplicated candidate opportunities; by stability of the sort each duplicate
follows a copy of itself, and the greedy selector always rejects it (its
leave-date keys are consumed if the copy was accepted, and the rejection
reasons — key overlap and budget — only grow along the scan). -/
theorem duplicate_holidays_tolerated (hs : List ℤ) (tl : ℤ) (s p : Bool) :
    optimizeLeaves hs tl s p = optimizeLeaves (removeDups [] hs) tl s p := by
  unfold optimizeLeaves optimizeLeavesF
  have hguard : hs.isEmpty = (removeDups [] hs).isEmpty := by
    cases hs with
    | nil => rfl
    | cons x xs => simp [removeDups]
  rw [← hguard]
  by_cases hg : (hs.isEmpty || decide (tl ≤ 0)) = true
  · rw [if_pos hg, if_pos hg]
  · rw [if_neg hg, if_neg hg]
    have hstate : finalStateOf 0 hs tl p = finalStateOf 0 (removeDups [] hs) tl p := by
      unfold finalStateOf
      have hmem : ∀ x, x ∈ normalizedHolidaysOf hs ↔
          x ∈ normalizedHolidaysOf (removeDups [] hs) := by
        intro x
        rw [normalizedHolidaysOf_mem, normalizedHolidaysOf_mem, removeDups_mem]
        simp
      have hera : Era [] (normalizedHolidaysOf hs)
          (normalizedHolidaysOf (removeDups [] hs)) := by
        unfold normalizedHolidaysOf
        rw [map_normalize, map_normalize]
        exact era_sortBy intLE intLE_refl intLE_trans intLE_total
          (era_removeDups hs [])
      have hops : opportunitiesOf 0 (removeDups [] hs) =
          flatMapL (fun h => findOpportunitiesAroundHolidayF 0 h (normalizedHolidaysOf hs))
            (normalizedHolidaysOf (removeDups [] hs)) := by
        unfold opportunitiesOf
        exact flatMapL_congr _ _
          (fun h => find_congr 0 h (fun x => (hmem x).symm)) _
      rw [hops]
      have heraO : Era [] (opportunitiesOf 0 hs)
          (flatMapL (fun h => findOpportunitiesAroundHolidayF 0 h (normalizedHolidaysOf hs))
            (normalizedHolidaysOf (removeDups [] hs))) := by
        unfold opportunitiesOf
        exact era_flatMap _ hera []
          (by intro h hh o ho; exact absurd hh (List.not_mem_nil _))
      have heraS := era_sortBy (oppLE p) (oppLE_refl p) (oppLE_trans p)
        (oppLE_total p) heraO
      apply era_selectGo tl heraS
      · intro o ho; exact absurd ho (List.not_mem_nil _)
      · intro o ho
        rw [sortBy_mem] at ho
        unfold opportunitiesOf at ho
        rw [flatMapL_mem] at ho
        obtain ⟨hday, _, hfind'⟩ := ho
        obtain ⟨_, seed, _, hbuild⟩ := find_mem 0 hday _ o hfind'
        obtain ⟨hld, _, _, _, _, _, hne, _⟩ := buildOpp_some_spec _ _ _ _ _ hbuild
        rw [hld]
        exact hne
    rw [hstate]

end LeaveOpt
